import Mathlib

/-!
# Verification of the section-processing pipeline's parse / context / citation substrate

Shallow embedding, in Lean 4, of the algorithms of the document-analysis
engine — chunking (`backend/pipeline/convert.py`), context building
(`pipeline/context.py`), citation grouping (`pipeline/citations.py`),
progress milestones (`backend/pipeline/main.py`), embedding-batch retry
(`backend/clients/cosmos.py`) and the column-letter conversions — together
with theorems settling the specification's claims about them.

Modelling conventions:
* the byte-pair tokenizer is external; every definition that needs token
  counts is parameterised over an abstract tokenizer (`tok : String → Nat`,
  or an `encode`/`decode` pair), exactly where the source calls
  `tokenizer.encode` / `tokenizer.decode`;
* floats (`score`, sleep delays, polygon coordinates) are modelled as `ℚ`;
* Python `dict`s are modelled as association lists in insertion order with
  overwrite-on-duplicate-key semantics (Python 3.7+ dict semantics);
* the persisted sheet store (`sheets_map`) is modelled as a total map
  `String → String → Sheet`, justified by data-model invariant 5 ("for any
  table match with `slice.truncated = true`, the full sheet is available
  in the persisted sheet store"); the source raises `KeyError` outside
  that domain, so no claim depends on missing entries.
-/

/-! ## Configuration constants (`core/config.py`) -/

def PARSE_MAX_TOKENS : Nat := 1024

def PARSE_OVERLAP_TOKENS : Nat := 128

def TABLE_MAX_TOKENS_PER_CHUNK : Nat := 7000

def CONTEXT_MAX_TOKENS : Nat := 75000

def COSMOS_MAX_EMBEDDING_BATCH_SIZE : Nat := 500

/-- `COSMOS_EMBEDDING_BATCH_DELAY = 0.05` seconds. -/
def COSMOS_EMBEDDING_BATCH_DELAY : ℚ := 5 / 100

/-! ## Column-letter conversions (claim C10)

`Context._col_to_excel` (`backend/pipeline/context.py` lines 17-24) converts a
0-based column index; `Parser._get_column_letter` (`backend/pipeline/convert.py`
lines 586-593) converts a 1-based column number.  Both build the string by
prepending `chr(65 + ·)` characters, so the recursive call handles the more
significant letters. -/

/-- `Context._col_to_excel`: 0-based index to Excel letters.
Python loop: `while col >= 0: result = chr(65 + col % 26) + result; col = col // 26 - 1`.
The loop continues exactly when `col // 26 - 1 ≥ 0`, i.e. `col ≥ 26`. -/
def colToExcel (col : Nat) : String :=
  if h : col < 26 then String.singleton (Char.ofNat (65 + col % 26))
  else colToExcel (col / 26 - 1) ++ String.singleton (Char.ofNat (65 + col % 26))
termination_by col
decreasing_by
  have h26 : col / 26 < col := Nat.div_lt_self (by omega) (by omega)
  omega

/-- `Parser._get_column_letter`: 1-based column number to Excel letters.
Python loop: `while col_num > 0: col_num -= 1; result = chr(65 + col_num % 26) + result; col_num //= 26`. -/
def getColumnLetter (colNum : Nat) : String :=
  if colNum = 0 then ""
  else getColumnLetter ((colNum - 1) / 26) ++ String.singleton (Char.ofNat (65 + (colNum - 1) % 26))
termination_by colNum
decreasing_by
  have : (colNum - 1) / 26 ≤ colNum - 1 := Nat.div_le_self _ _
  omega

theorem getColumnLetter_zero : getColumnLetter 0 = "" := by
  rw [getColumnLetter]
  simp

theorem getColumnLetter_succ (c : Nat) :
    getColumnLetter (c + 1) =
      getColumnLetter (c / 26) ++ String.singleton (Char.ofNat (65 + c % 26)) := by
  rw [getColumnLetter]
  simp

/-- Claim C10: for every integer column index `c ≥ 0`, the context builder's
0-based conversion `_col_to_excel(c)` and the parser's 1-based conversion
`_get_column_letter(c+1)` produce the same spreadsheet column letters
(`A`, `B`, …, `Z`, `AA`, `AB`, …). -/
theorem colToExcel_eq_getColumnLetter (c : Nat) :
    colToExcel c = getColumnLetter (c + 1) := by
  induction c using Nat.strong_induction_on with
  | _ c ih =>
    rw [getColumnLetter_succ, colToExcel]
    by_cases h : c < 26
    · have h0 : c / 26 = 0 := Nat.div_eq_of_lt h
      simp [h, h0, getColumnLetter_zero]
    · have h1 : 1 ≤ c / 26 := (Nat.one_le_div_iff (by omega)).mpr (by omega)
      have hlt : c / 26 - 1 < c := by
        have : c / 26 < c := Nat.div_lt_self (by omega) (by omega)
        omega
      have := ih (c / 26 - 1) hlt
      simp only [h, dite_false]
      rw [this]
      congr 2
      omega

example : colToExcel 0 = "A" := by rw [colToExcel]; rfl
example : colToExcel 26 = "AA" := by rw [colToExcel, colToExcel]; rfl

/-! ## Core data model (`backend/core/types.py`)

`Unit` is named `DocUnit` (Lean reserves `Unit`) and `File` is `DFile`.
`Unit.type` is the source's `Literal["text", "table"]`, kept as a string.
Scores and coordinates (floats in the source) are `ℚ`. -/

structure BBox where
  left : ℚ
  top : ℚ
  width : ℚ
  height : ℚ
deriving DecidableEq, Repr

structure Location where
  page : Option Nat := none
  sheet : Option String := none
  row : Option Nat := none
  col : Option String := none
  bounds : Option BBox := none
deriving DecidableEq, Repr

structure DFile where
  id : String
  name : String
deriving DecidableEq, Repr

structure Meta where
  company : Option String := none
  ticker : Option String := none
  doc_type : Option String := none
  period_label : Option String := none
  blurb : Option String := none
deriving DecidableEq, Repr

structure DocUnit where
  id : String
  type : String
  text : String
  location : Location
deriving DecidableEq, Repr

structure Cell where
  value : String
  row : Nat
  col : String
deriving DecidableEq, Repr

structure Dimensions where
  max_row : Nat
  max_col : Nat
deriving DecidableEq, Repr

structure Sheet where
  cells : List (String × Cell)
  dimensions : Dimensions
  tokens : Nat
deriving DecidableEq, Repr

structure Slice where
  sheet : String
  truncated : Bool
deriving DecidableEq, Repr

structure Chunk where
  file : DFile
  units : List DocUnit
  tokens : Nat
  slice : Option Slice := none
deriving DecidableEq, Repr

structure Match extends Chunk where
  id : String
  score : ℚ
  meta : Meta
deriving DecidableEq, Repr

structure Source where
  unit : DocUnit
  file : DFile
  meta : Meta
deriving DecidableEq, Repr

/-- Python truthiness of an `Optional[str]`: `None` and `""` are falsy. -/
def optTruthy : Option String → Bool
  | none => false
  | some s => s ≠ ""

/-- Python f-string rendering of an `Optional[str]` (`None` prints as `"None"`). -/
def optStr : Option String → String
  | none => "None"
  | some s => s

/-! ## Stable sorting

Python's `sorted` / `list.sort` is a stable sort.  We model it by insertion
sort on a boolean "less or equal" predicate: an element is inserted before
the first existing element it compares `le` to, which preserves the original
relative order of ties. -/

def insertSorted {α} (le : α → α → Bool) (x : α) : List α → List α
  | [] => [x]
  | y :: ys => if le x y then x :: y :: ys else y :: insertSorted le x ys

def stableSort {α} (le : α → α → Bool) : List α → List α
  | [] => []
  | x :: xs => insertSorted le x (stableSort le xs)

theorem perm_insertSorted {α} (le : α → α → Bool) (x : α) (l : List α) :
    List.Perm (insertSorted le x l) (x :: l) := by
  induction l with
  | nil => simp [insertSorted]
  | cons y ys ih =>
    simp only [insertSorted]
    by_cases h : le x y
    · simp [h]
    · simp only [h, if_false]
      exact (ih.cons y).trans (List.Perm.swap x y ys)

theorem perm_stableSort {α} (le : α → α → Bool) (l : List α) :
    List.Perm (stableSort le l) l := by
  induction l with
  | nil => simp [stableSort]
  | cons x xs ih =>
    simp only [stableSort]
    exact (perm_insertSorted le x (stableSort le xs)).trans (ih.cons x)

theorem sorted_insertSorted {α} (le : α → α → Bool)
    (htot : ∀ a b, le a b = true ∨ le b a = true)
    (htrans : ∀ a b c, le a b = true → le b c = true → le a c = true)
    (x : α) (l : List α) (hl : List.Sorted (fun a b => le a b = true) l) :
    List.Sorted (fun a b => le a b = true) (insertSorted le x l) := by
  induction l with
  | nil => simp [insertSorted]
  | cons y ys ih =>
    simp only [insertSorted]
    by_cases h : le x y
    · rw [if_pos h]
      refine List.sorted_cons.mpr ⟨?_, hl⟩
      intro b hb
      rcases List.mem_cons.mp hb with rfl | hb
      · exact h
      · exact htrans x y b h ((List.sorted_cons.mp hl).1 b hb)
    · rw [if_neg h]
      have hyx : le y x = true := (htot x y).resolve_left h
      have hys := (List.sorted_cons.mp hl).2
      refine List.sorted_cons.mpr ⟨?_, ih hys⟩
      intro b hb
      have := (perm_insertSorted le x ys).mem_iff.mp hb
      rcases List.mem_cons.mp this with rfl | hb'
      · exact hyx
      · exact (List.sorted_cons.mp hl).1 b hb'

theorem sorted_stableSort {α} (le : α → α → Bool)
    (htot : ∀ a b, le a b = true ∨ le b a = true)
    (htrans : ∀ a b c, le a b = true → le b c = true → le a c = true)
    (l : List α) : List.Sorted (fun a b => le a b = true) (stableSort le l) := by
  induction l with
  | nil => simp [stableSort]
  | cons x xs ih => exact sorted_insertSorted le htot htrans x (stableSort le xs) ih

/-! ## Context builder (`pipeline/context.py`, class `Context`)

`Context.build` selects matches under the token budget (`_select_chunks`),
orders them for presentation (`_sort_chunks`), and renders numbered lines
while building the `sources` map. -/

/-- Effective token count of a match in `_select_chunks` (lines 104-108):
`match.tokens`, except that a truncated table match is charged the full
sheet's `tokens` from the sheet store. -/
def effTokens (sheetsMap : String → String → Sheet) (m : Match) : Nat :=
  match m.slice with
  | some sl => if sl.truncated then (sheetsMap m.file.id sl.sheet).tokens else m.tokens
  | none => m.tokens

def sumEff (sheetsMap : String → String → Sheet) (l : List Match) : Nat :=
  (l.map (effTokens sheetsMap)).sum

/-- `sorted(matches, key=lambda m: m.score, reverse=True)` (line 100): a
stable sort, descending by score. -/
def scoreDescSort (ms : List Match) : List Match :=
  stableSort (fun a b => decide (b.score ≤ a.score)) ms

/-- The accumulation loop of `_select_chunks` (lines 101-116): admit a match
exactly when the running total plus its effective tokens stays within
`CONTEXT_MAX_TOKENS`; `break` at the first non-fitting match. -/
def selectGo (sheetsMap : String → String → Sheet) : List Match → Nat → List Match × Nat
  | [], total => ([], total)
  | m :: ms, total =>
    let t := effTokens sheetsMap m
    if total + t ≤ CONTEXT_MAX_TOKENS then
      let r := selectGo sheetsMap ms (total + t)
      (m :: r.1, r.2)
    else ([], total)

/-- `Context._select_chunks` (lines 96-116). -/
def selectChunks (ms : List Match) (sheetsMap : String → String → Sheet) :
    List Match × Nat :=
  selectGo sheetsMap (scoreDescSort ms) 0

/-- `Context._match_position` (lines 133-140); Python's `x or d` on an
optional is `Option.getD` here (both defaults are falsy values). -/
def matchPosition (m : Match) : Nat × String :=
  match m.units with
  | [] => (0, "")
  | u :: _ =>
    if u.type = "text" then (u.location.page.getD 0, "")
    else (u.location.row.getD 0, u.location.sheet.getD "")

/-- Lexicographic order on Python `(int, str)` sort keys. -/
def pairLe (a b : Nat × String) : Bool :=
  decide (a.1 < b.1 ∨ (a.1 = b.1 ∧ a.2 ≤ b.2))

/-- Order-preserving deduplication (first occurrence wins) — the key order
of a Python dict built by repeated insertion. -/
def dedupFirstAux {α} [DecidableEq α] (seen : List α) : List α → List α
  | [] => []
  | x :: xs => if x ∈ seen then dedupFirstAux seen xs else x :: dedupFirstAux (x :: seen) xs

def dedupFirst {α} [DecidableEq α] (l : List α) : List α := dedupFirstAux [] l

/-- `Context._sort_chunks` (lines 118-131): group by file id (dict insertion
order), order files by descending max score (stable), and order matches
within a file by `_match_position` (stable ascending). -/
def sortChunksOrder (ms : List Match) : List Match :=
  let fileIds := dedupFirst (ms.map (fun m => m.file.id))
  let group := fun fid => ms.filter (fun m => m.file.id = fid)
  let maxScore : String → ℚ := fun fid => (((group fid).map (fun m => m.score)).max?).getD 0
  let sortedIds := stableSort (fun a b => decide (maxScore b ≤ maxScore a)) fileIds
  sortedIds.flatMap (fun fid => stableSort (fun a b => pairLe (matchPosition a) (matchPosition b)) (group fid))

/-- `Context._sheet_to_units` (lines 151-163). -/
def sheetToUnits (cells : List (String × Cell)) (sheetName : String) : List DocUnit :=
  let units := cells.map (fun p =>
    { id := p.1, type := "table", text := p.2.value,
      location := { sheet := some sheetName, row := some p.2.row, col := some p.2.col } : DocUnit })
  stableSort (fun a b =>
    pairLe (a.location.row.getD 0, a.location.col.getD "") (b.location.row.getD 0, b.location.col.getD "")) units

/-- `Context._get_units` (lines 142-149). -/
def getUnits (sheetsMap : String → String → Sheet) (m : Match) : List DocUnit :=
  match m.slice with
  | some sl =>
    if sl.truncated then sheetToUnits (sheetsMap m.file.id sl.sheet).cells sl.sheet
    else m.units
  | none => m.units

/-- Python `str.startswith`, as a structural character-list check (Lean's
`String.startsWith` is not kernel-reducible). -/
def strStartsWith (s pre : String) : Bool := pre.data.isPrefixOf s.data

/-- `Context._build_header` (lines 165-190). -/
def buildHeader (m : Match) : List String :=
  let companyStr :=
    if optTruthy m.meta.ticker then optStr m.meta.company ++ " (" ++ optStr m.meta.ticker ++ ")"
    else optStr m.meta.company
  let parts : List String :=
    (if optTruthy m.meta.company || optTruthy m.meta.ticker then ["**" ++ companyStr ++ "**"] else [])
    ++ (if optTruthy m.meta.doc_type then [optStr m.meta.doc_type] else [])
    ++ (if optTruthy m.meta.period_label then [optStr m.meta.period_label] else [])
  ["", "### " ++ m.file.name]
  ++ (if parts ≠ [] then [" | ".intercalate parts] else [])
  ++ (if strStartsWith m.file.name "http" then ["URL: " ++ m.file.name] else [])
  ++ (if optTruthy m.meta.blurb then ["", "Summary: " ++ optStr m.meta.blurb] else [])
  ++ [""]

/-- Python-dict assignment `d[k] = v`: overwrite in place, else append. -/
def dictInsert {β} (k : String) (v : β) : List (String × β) → List (String × β)
  | [] => [(k, v)]
  | (k', v') :: rest => if k' = k then (k, v) :: rest else (k', v') :: dictInsert k v rest

/-- Mutable state of the rendering loop of `Context.build` (lines 41-46). -/
structure BuildState where
  sources : List (String × Source)
  lines : List String
  currentFile : Option String
  currentSheet : Option String
  seen : List (String × String)
  counter : Nat
deriving DecidableEq, Repr

/-- Body of the per-unit loop of `Context.build` (lines 66-92).  The second
component of the accumulator is `current_row`. -/
def processUnit (file : DFile) (meta : Meta) (acc : BuildState × Option Nat) (u : DocUnit) :
    BuildState × Option Nat :=
  let st := acc.1
  let currentRow := acc.2
  if (file.id, u.id) ∈ st.seen then acc
  else
    let st := { st with seen := (file.id, u.id) :: st.seen }
    if u.type = "text" then
      let gid := toString st.counter
      ({ st with counter := st.counter + 1,
                 lines := st.lines ++ ["[" ++ gid ++ "] " ++ u.text],
                 sources := dictInsert gid ⟨u, file, meta⟩ st.sources }, currentRow)
    else
      let row := u.location.row
      let counter :=
        if row ≠ currentRow ∧ currentRow.isSome then st.counter + 1 else st.counter
      let currentRow' := if row ≠ currentRow then row else currentRow
      let gid := toString counter ++ optStr u.location.col
      ({ st with counter := counter,
                 lines := st.lines ++ ["[" ++ gid ++ "]: " ++ u.text],
                 sources := dictInsert gid ⟨u, file, meta⟩ st.sources }, currentRow')

/-- Body of the per-match loop of `Context.build` (lines 48-92). -/
def processMatch (sheetsMap : String → String → Sheet) (st : BuildState) (m : Match) :
    BuildState :=
  let sheetName : Option String := m.slice.map (fun sl => sl.sheet)
  let units := getUnits sheetsMap m
  if units = [] then st
  else
    let st :=
      if st.currentFile ≠ some m.file.id then
        { st with lines := st.lines ++ buildHeader m,
                  currentFile := some m.file.id, currentSheet := none }
      else st
    let st :=
      if optTruthy sheetName ∧ sheetName ≠ st.currentSheet then
        { st with lines := st.lines ++ ["", "--- Sheet: " ++ optStr sheetName ++ " ---"],
                  currentSheet := sheetName }
      else st
    (units.foldl (processUnit m.file m.meta) (st, none)).1

/-- The final loop state of `Context.build` (lines 28-92): select under
budget, order for presentation, render lines and the `sources` map. -/
def contextBuildState (ms : List Match) (sheetsMap : String → String → Sheet) : BuildState :=
  let selected := (selectChunks ms sheetsMap).1
  let sorted := sortChunksOrder selected
  sorted.foldl (processMatch sheetsMap) ⟨[], [], none, none, [], 1⟩

/-- `Context.build` (lines 28-94): returns `("\n".join(lines), sources)`. -/
def contextBuild (ms : List Match) (sheetsMap : String → String → Sheet) :
    String × List (String × Source) :=
  ("\n".intercalate (contextBuildState ms sheetsMap).lines, (contextBuildState ms sheetsMap).sources)

theorem sumEff_nil (sm : String → String → Sheet) : sumEff sm [] = 0 := rfl

theorem sumEff_cons (sm : String → String → Sheet) (m : Match) (l : List Match) :
    sumEff sm (m :: l) = effTokens sm m + sumEff sm l := by
  simp [sumEff]

/-- Characterization of the `_select_chunks` accumulation loop: starting from
a running total, the loop returns a prefix of its input; every admitted match
kept the running total within the budget; and if anything remains, the first
remaining match did not fit. -/
theorem selectGo_spec (sm : String → String → Sheet) (l : List Match) (total : Nat) :
    ∃ k, k ≤ l.length ∧
      (selectGo sm l total).1 = l.take k ∧
      (selectGo sm l total).2 = total + sumEff sm (l.take k) ∧
      (∀ j, j < k → total + sumEff sm (l.take (j + 1)) ≤ CONTEXT_MAX_TOKENS) ∧
      (∀ m ms', l.drop k = m :: ms' →
        CONTEXT_MAX_TOKENS < total + sumEff sm (l.take k) + effTokens sm m) := by
  induction l generalizing total with
  | nil =>
    refine ⟨0, by simp, by simp [selectGo], by simp [selectGo, sumEff], ?_, ?_⟩
    · intro j hj; omega
    · intro m ms' hms'; simp at hms'
  | cons m ms ih =>
    by_cases h : total + effTokens sm m ≤ CONTEXT_MAX_TOKENS
    · obtain ⟨k, hk, h1, h2, h3, h4⟩ := ih (total + effTokens sm m)
      refine ⟨k + 1, by simpa using hk, ?_, ?_, ?_, ?_⟩
      · simp [selectGo, h, h1]
      · simp only [selectGo, h, if_true, List.take_succ_cons, sumEff_cons]
        omega
      · intro j hj
        match j with
        | 0 => simpa [sumEff_cons, sumEff_nil] using h
        | j + 1 =>
          have := h3 j (by omega)
          simpa [sumEff_cons, Nat.add_assoc] using this
      · intro m' ms' hms'
        have := h4 m' ms' (by simpa using hms')
        simpa [sumEff_cons, Nat.add_assoc] using this
    · refine ⟨0, by simp, by simp [selectGo, h], by simp [selectGo, h, sumEff], ?_, ?_⟩
      · intro j hj; omega
      · intro m' ms' hms'
        simp only [List.drop_zero] at hms'
        cases hms'
        simpa [sumEff_nil] using Nat.lt_of_not_le h

theorem scoreDescSort_sorted (ms : List Match) :
    List.Sorted (fun a b : Match => b.score ≤ a.score) (scoreDescSort ms) := by
  have h := sorted_stableSort (fun a b : Match => decide (b.score ≤ a.score))
    (fun a b => by rcases le_total b.score a.score with h | h <;> simp [h])
    (fun a b c h1 h2 => by
      simp only [decide_eq_true_eq] at *
      exact le_trans h2 h1) ms
  exact h.imp (fun h => of_decide_eq_true h)

/-- Claim C6: budgeted selection considers matches in descending score order,
accumulates each match's effective token count (full-sheet tokens substituted
for truncated table matches), admits a match exactly when the running total
plus its tokens stays within `CONTEXT_MAX_TOKENS`, and stops at the first
non-fitting match, dropping every later match regardless of its size: the
selection is a prefix of the score-sorted list, every admitted prefix sum is
within budget, and if any match remains, the first remaining match does not
fit. -/
theorem selectChunks_budgeted_selection (ms : List Match) (sm : String → String → Sheet) :
    List.Sorted (fun a b : Match => b.score ≤ a.score) (scoreDescSort ms) ∧
    List.Perm (scoreDescSort ms) ms ∧
    ∃ k, k ≤ (scoreDescSort ms).length ∧
      (selectChunks ms sm).1 = (scoreDescSort ms).take k ∧
      (selectChunks ms sm).2 = sumEff sm ((scoreDescSort ms).take k) ∧
      (∀ j, j < k → sumEff sm ((scoreDescSort ms).take (j + 1)) ≤ CONTEXT_MAX_TOKENS) ∧
      (∀ m ms', (scoreDescSort ms).drop k = m :: ms' →
        CONTEXT_MAX_TOKENS < sumEff sm ((scoreDescSort ms).take k) + effTokens sm m) := by
  refine ⟨scoreDescSort_sorted ms, perm_stableSort _ ms, ?_⟩
  obtain ⟨k, hk, h1, h2, h3, h4⟩ := selectGo_spec sm (scoreDescSort ms) 0
  exact ⟨k, hk, h1, by simpa using h2, fun j hj => by simpa using h3 j hj,
    fun m ms' hm => by simpa using h4 m ms' hm⟩

/-- Claim C1, amended: the context builder enforces the budget on the
*recorded* token counts: the total effective tokens (full-sheet tokens
substituted for truncated table matches) of the matches selected for
rendering is at most `CONTEXT_MAX_TOKENS`.  The rendered context string
itself is not re-tokenized, and its header lines and bracket markup are not
charged against the budget (see `contextNotRetokenized` for the
counterexample). -/
theorem selectChunks_within_budget (ms : List Match) (sm : String → String → Sheet) :
    sumEff sm ((selectChunks ms sm).1) ≤ CONTEXT_MAX_TOKENS ∧
    (selectChunks ms sm).2 = sumEff sm ((selectChunks ms sm).1) := by
  obtain ⟨k, hk, h1, h2, h3, h4⟩ := selectGo_spec sm (scoreDescSort ms) 0
  have htot : (selectChunks ms sm).2 = sumEff sm ((selectChunks ms sm).1) := by
    rw [show (selectChunks ms sm).1 = (selectGo sm (scoreDescSort ms) 0).1 from rfl, h1]
    simpa using h2
  refine ⟨?_, htot⟩
  rw [show (selectChunks ms sm).1 = (selectGo sm (scoreDescSort ms) 0).1 from rfl, h1]
  match k, hk, h3 with
  | 0, _, _ => simp [sumEff]
  | k + 1, hk, h3 => simpa using h3 k (by omega)

/-! ### Concrete inputs for claims C1 and C2 -/

/-- A tokenizer assigning 75000 tokens per character.  Any `String → Nat`
function is admissible here because `Context.build` never tokenizes the
rendered string: the budget is enforced only on the stored per-match token
counts. -/
def tokPerChar75k : String → Nat := fun s => 75000 * s.length

def sheetsEmpty : String → String → Sheet := fun _ _ => ⟨[], ⟨0, 0⟩, 0⟩

def unitC1 : DocUnit := { id := "1", type := "text", text := "a", location := { page := some 1 } }

def matchC1 : Match :=
  { file := ⟨"f1", "doc"⟩, units := [unitC1], tokens := 75000, slice := none,
    id := "m1", score := 1, meta := {} }

/-- Claim C1 as stated: for every input match set and sheet store, and any
tokenizer under which the matches' stored `tokens` fields are faithful
(`tokens = Σ tokenize(u.text)` over the match's units), the rendered context
tokenizes to at most `CONTEXT_MAX_TOKENS`. -/
def contextClaimC1 : Prop :=
  ∀ (tok : String → Nat) (ms : List Match) (sm : String → String → Sheet),
    (∀ m ∈ ms, m.tokens = (m.units.map (fun u => tok u.text)).sum) →
    tok (contextBuild ms sm).1 ≤ CONTEXT_MAX_TOKENS

/-- Claim C1 is false on the code: a single selected match whose stored token
count is exactly `CONTEXT_MAX_TOKENS` passes `_select_chunks`, but the
rendered context additionally contains the `### <file>` header block and the
`[1] ` bracket markup, which are never counted — so the rendered context
tokenizes to more than `CONTEXT_MAX_TOKENS`. -/
theorem contextNotRetokenized : ¬ contextClaimC1 := by
  intro h
  have hfaithful : ∀ m ∈ [matchC1], m.tokens = (m.units.map (fun u => tokPerChar75k u.text)).sum := by
    decide
  have := h tokPerChar75k [matchC1] sheetsEmpty hfaithful
  exact absurd this (by decide)

def unitA : DocUnit :=
  { id := "B1", type := "table", text := "x",
    location := { sheet := some "S", row := some 1, col := some "B" } }

def unitB : DocUnit :=
  { id := "B1", type := "table", text := "y",
    location := { sheet := some "S", row := some 1, col := some "B" } }

def matchA : Match :=
  { file := ⟨"f1", "a.xlsx"⟩, units := [unitA], tokens := 1, slice := some ⟨"S", false⟩,
    id := "mA", score := 1, meta := {} }

def matchB : Match :=
  { file := ⟨"f2", "b.xlsx"⟩, units := [unitB], tokens := 1, slice := some ⟨"S", false⟩,
    id := "mB", score := 0, meta := {} }

/-- Claim C2 fails on the code (code bug): `Context.build` advances the
row-grouped table counter only at row transitions *within* a match and never
after a table match ends, so two table matches rendered one after the other
reuse the same integer.  Here both matches' first rows get global id `1B`:
the context contains two distinct unit lines `[1B]: x` and `[1B]: y`, yet
`sources` holds a single entry for `1B`, pointing at the second unit only —
the line `[1B]: x` resolves to the wrong unit. -/
theorem contextGlobalIdCollision :
    (contextBuildState [matchA, matchB] sheetsEmpty).lines.count "[1B]: x" = 1 ∧
    (contextBuildState [matchA, matchB] sheetsEmpty).lines.count "[1B]: y" = 1 ∧
    (contextBuild [matchA, matchB] sheetsEmpty).2 =
      [("1B", ⟨unitB, ⟨"f2", "b.xlsx"⟩, {}⟩)] := by
  decide

/-! ## Text parsing and chunking (`backend/pipeline/convert.py`)

The tokenizer is abstract: `encode : String → List Nat` and
`decode : List Nat → String` stand for `tokenizer.encode` / `decode`. -/

structure Line where
  text : String
  bounds : Option BBox := none
deriving DecidableEq, Repr

/-- Python `str.strip()` (Lean's `String.trim` is not kernel-reducible). -/
def strTrim (s : String) : String :=
  ⟨((s.data.dropWhile Char.isWhitespace).reverse.dropWhile Char.isWhitespace).reverse⟩

/-- Python `text.split(sep)` for a one-character separator (empty pieces are
kept, as in Python). -/
def splitOnCharAux (c : Char) : List Char → List Char → List String
  | [], acc => [⟨acc.reverse⟩]
  | x :: xs, acc =>
    if x = c then ⟨acc.reverse⟩ :: splitOnCharAux c xs []
    else splitOnCharAux c xs (x :: acc)

def splitOnChar (c : Char) (s : String) : List String := splitOnCharAux c s.data []

/-- `make_lines` (`convert.py` lines 84-86): keep only strings whose `strip()`
is truthy; the kept text is the original, unstripped string. -/
def makeLines (texts : List String) : List Line :=
  (texts.filter (fun t => strTrim t ≠ "")).map (fun t => { text := t })

/-- `split_by_newlines` (lines 89-91). -/
def splitByNewlines (text : String) : List Line := makeLines (splitOnChar '\n' text)

/-! ### PDF / OCR path (`Parser._parse_pdf`, lines 197-229) -/

structure OcrLine where
  content : String
  polygon : List ℚ
deriving DecidableEq, Repr

structure OcrPage where
  width : ℚ
  height : ℚ
  lines : List OcrLine
deriving DecidableEq, Repr

structure PageData where
  page : Nat
  lines : List Line
deriving DecidableEq, Repr

/-- `polygon_to_bounds` (lines 58-81). -/
def polygonToBounds (poly : List ℚ) (pageWidth pageHeight : ℚ) : BBox :=
  { left := max 0 (poly.getD 0 0 / pageWidth * 100),
    top := max 0 (poly.getD 1 0 / pageHeight * 100),
    width := max 0 ((poly.getD 2 0 - poly.getD 0 0) / pageWidth * 100),
    height := max 0 ((poly.getD 5 0 - poly.getD 1 0) / pageHeight * 100) }

/-- `Parser._parse_pdf` page loop (lines 205-225): pages with no lines are
skipped (`enumerate(..., 1)` still counts them); every OCR line's `content`
becomes a `Line` verbatim — there is no emptiness check on this path. -/
def parsePdf (pages : List OcrPage) : List PageData :=
  pages.enum.filterMap (fun p =>
    if p.2.lines = [] then none
    else some
      { page := p.1 + 1,
        lines := p.2.lines.map (fun line =>
          if 8 ≤ line.polygon.length then
            { text := line.content,
              bounds := some (polygonToBounds line.polygon p.2.width p.2.height) }
          else { text := line.content }) })

/-! ### Oversized-line splitting and unit construction
(`Parser._split_oversized_line` lines 253-263, `_build_text_chunks` lines 270-291) -/

/-- Token slices `tokens[i : i + PARSE_MAX_TOKENS]` for `i` in
`range(0, len(tokens), PARSE_MAX_TOKENS)`, as successive blocks. -/
def chunkList {τ} (n : Nat) : List τ → List (List τ)
  | [] => []
  | x :: xs => (x :: xs.take (n - 1)) :: chunkList n (xs.drop (n - 1))
termination_by l => l.length
decreasing_by
  simp only [List.length_cons, List.length_drop]
  omega

/-- `Parser._split_oversized_line`. -/
def splitOversized (encode : String → List Nat) (decode : List Nat → String)
    (text : String) : List String :=
  let tokens := encode text
  if tokens.length ≤ PARSE_MAX_TOKENS then [text]
  else (chunkList PARSE_MAX_TOKENS tokens).map decode

/-- The `(page, bounds, piece)` stream of `_build_text_chunks`' unit loop. -/
def pagePieces (encode : String → List Nat) (decode : List Nat → String)
    (pageData : List PageData) : List (Nat × Option BBox × String) :=
  pageData.flatMap (fun p => p.lines.flatMap (fun line =>
    (splitOversized encode decode line.text).map (fun piece => (p.page, line.bounds, piece))))

/-- Numbering of units with the running `unit_num` counter (ids `"1"`, `"2"`,
…), paired with each unit's token count `len(encode(piece))`. -/
def numberPieces (encode : String → List Nat) :
    Nat → List (Nat × Option BBox × String) → List (DocUnit × Nat)
  | _, [] => []
  | n, (pg, b, piece) :: rest =>
    ({ id := toString n, type := "text", text := piece,
       location := { page := some pg, bounds := b } }, (encode piece).length)
      :: numberPieces encode (n + 1) rest

/-- `all_units` of `_build_text_chunks` (lines 270-291). -/
def unitsOfPages (encode : String → List Nat) (decode : List Nat → String)
    (pageData : List PageData) : List (DocUnit × Nat) :=
  numberPieces encode 1 (pagePieces encode decode pageData)

/-! ### The packing loop with overlap (`_build_text_chunks`, lines 295-323) -/

def sumTok {α} (l : List (α × Nat)) : Nat := (l.map Prod.snd).sum

/-- The inner packing loop (lines 302-308) after the first unit has been
taken with running total `acc`: count how many further units are packed
(`break` when `chunk_tokens + tokens > PARSE_MAX_TOKENS`). -/
def chunkTakeGo (acc : Nat) : List Nat → Nat
  | [] => 0
  | t :: rest =>
    if acc + t > PARSE_MAX_TOKENS then 0 else 1 + chunkTakeGo (acc + t) rest

/-- Number of units the packing loop takes from the front of the unit list:
the first unit is always taken (the `and chunk_units` guard). -/
def chunkTake : List Nat → Nat
  | [] => 0
  | t :: rest => 1 + chunkTakeGo t rest

/-- The backtracking loop (lines 313-322), walking the chunk's units in
reverse (never past the chunk's second unit): number of trailing units that
form the overlap.  Input is the reversed token list of the chunk minus its
first unit. -/
def overlapLen (acc : Nat) : List Nat → Nat
  | [] => 0
  | t :: rest =>
    if PARSE_OVERLAP_TOKENS ≤ acc + t then 1 else 1 + overlapLen (acc + t) rest

/-- The outer `while idx < len(all_units)` loop, fuel-indexed so that it is
kernel-computable; `packChunks` supplies fuel `l.length`, which always
suffices because every iteration consumes at least one unit. -/
def packChunksAux {α} : Nat → List (α × Nat) → List (List (α × Nat))
  | _, [] => []
  | 0, _ :: _ => []
  | fuel + 1, x :: xs =>
    let l := x :: xs
    let n := chunkTake (l.map Prod.snd)
    let chunk := l.take n
    if n < l.length then
      let k := overlapLen 0 (((chunk.drop 1).map Prod.snd).reverse)
      chunk :: packChunksAux fuel (l.drop (n - k))
    else [chunk]

def packChunks {α} (l : List (α × Nat)) : List (List (α × Nat)) :=
  packChunksAux l.length l

/-- `Parser._build_text_chunks`: the produced chunks (each chunk's `units`
and `tokens` fields). -/
def buildTextChunks (encode : String → List Nat) (decode : List Nat → String)
    (file : DFile) (pageData : List PageData) : List Chunk :=
  (packChunks (unitsOfPages encode decode pageData)).map (fun cu =>
    { file := file, units := cu.map Prod.fst, tokens := sumTok cu })

theorem chunkTakeGo_le (l : List Nat) : ∀ acc, chunkTakeGo acc l ≤ l.length := by
  induction l with
  | nil => intro acc; simp [chunkTakeGo]
  | cons t rest ih =>
    intro acc
    simp only [chunkTakeGo, List.length_cons]
    by_cases h : acc + t > PARSE_MAX_TOKENS
    · simp [h]
    · simp only [h, if_false]
      have := ih (acc + t)
      omega

theorem chunkTake_le (l : List Nat) : chunkTake l ≤ l.length := by
  cases l with
  | nil => simp [chunkTake]
  | cons t rest =>
    simp only [chunkTake, List.length_cons]
    have := chunkTakeGo_le rest t
    omega

theorem overlapLen_le (l : List Nat) : ∀ acc, overlapLen acc l ≤ l.length := by
  induction l with
  | nil => intro acc; simp [overlapLen]
  | cons t rest ih =>
    intro acc
    simp only [overlapLen, List.length_cons]
    by_cases h : PARSE_OVERLAP_TOKENS ≤ acc + t
    · simp [h]
    · simp only [h, if_false]
      have := ih (acc + t)
      omega

/-- The backtracking loop stops only once the accumulated overlap reaches
`PARSE_OVERLAP_TOKENS` — or once it has consumed its whole input (every unit
of the chunk but the first). -/
theorem overlapLen_spec (l : List Nat) : ∀ acc,
    PARSE_OVERLAP_TOKENS ≤ acc + (l.take (overlapLen acc l)).sum ∨
      overlapLen acc l = l.length := by
  induction l with
  | nil => intro acc; right; simp [overlapLen]
  | cons t rest ih =>
    intro acc
    simp only [overlapLen]
    by_cases h : PARSE_OVERLAP_TOKENS ≤ acc + t
    · left
      simp [h]
    · simp only [h, if_false]
      rcases ih (acc + t) with h' | h'
      · left
        rw [Nat.add_comm 1 (overlapLen (acc + t) rest), List.take_succ_cons, List.sum_cons]
        omega
      · right
        rw [h', List.length_cons]
        omega

/-- If the packing loop takes at least one further unit past the first, the
whole packed total (first unit's `acc` plus the taken units) is within
`PARSE_MAX_TOKENS`. -/
theorem chunkTakeGo_sum (l : List Nat) : ∀ acc,
    chunkTakeGo acc l = 0 ∨ acc + (l.take (chunkTakeGo acc l)).sum ≤ PARSE_MAX_TOKENS := by
  induction l with
  | nil => intro acc; left; simp [chunkTakeGo]
  | cons t rest ih =>
    intro acc
    simp only [chunkTakeGo]
    by_cases h : acc + t > PARSE_MAX_TOKENS
    · left; simp [h]
    · simp only [h, if_false]
      right
      rcases ih (acc + t) with h' | h'
      · rw [h']
        simpa using h
      · rw [Nat.add_comm 1 (chunkTakeGo (acc + t) rest), List.take_succ_cons, List.sum_cons]
        omega

theorem sum_take_le (l : List Nat) (k : Nat) : (l.take k).sum ≤ l.sum := by
  conv_rhs => rw [← List.take_append_drop k l]
  rw [List.sum_append]
  exact Nat.le_add_right _ _

theorem sum_drop_le (l : List Nat) (k : Nat) : (l.drop k).sum ≤ l.sum := by
  conv_rhs => rw [← List.take_append_drop k l]
  rw [List.sum_append]
  exact Nat.le_add_left _ _

theorem sum_take_mono (l : List Nat) {a b : Nat} (h : a ≤ b) :
    (l.take a).sum ≤ (l.take b).sum := by
  have h1 : l.take a = (l.take b).take a := by
    rw [List.take_take, Nat.min_eq_left h]
  rw [h1]
  exact sum_take_le _ _

/-- If the first `j` prefix sums (beyond the running total `acc`) all stay
within `PARSE_MAX_TOKENS`, the packing loop takes at least `j` further
units. -/
theorem chunkTakeGo_ge (l : List Nat) : ∀ (acc j : Nat), j ≤ l.length →
    (∀ i, 1 ≤ i → i ≤ j → acc + (l.take i).sum ≤ PARSE_MAX_TOKENS) →
    j ≤ chunkTakeGo acc l := by
  induction l with
  | nil =>
    intro acc j hj _
    simp only [List.length_nil, Nat.le_zero] at hj
    simp [hj, chunkTakeGo]
  | cons t rest ih =>
    intro acc j hj hsums
    match j with
    | 0 => omega
    | j + 1 =>
      have h1 : acc + t ≤ PARSE_MAX_TOKENS := by
        have := hsums 1 (by omega) (by omega)
        simpa using this
      have hcond : ¬ (acc + t > PARSE_MAX_TOKENS) := by omega
      simp only [chunkTakeGo, if_neg hcond]
      have : j ≤ chunkTakeGo (acc + t) rest := by
        refine ih (acc + t) j (by simpa using hj) ?_
        intro i h1i hij
        have := hsums (i + 1) (by omega) (by omega)
        rw [List.take_succ_cons, List.sum_cons] at this
        omega
      omega

/-- Sum of the first `k` elements of the reversal = sum of the last `k`
elements. -/
theorem sum_reverse_take (l : List Nat) (k : Nat) :
    (l.reverse.take k).sum = (l.drop (l.length - k)).sum := by
  rw [List.take_reverse, List.sum_reverse]

/-- The overlap relation actually guaranteed between two consecutive chunks:
the last `k` units of `A` are exactly the first `k` units of `B` (whole
units, never split), and their token total reaches `PARSE_OVERLAP_TOKENS`
unless the overlap already comprises every unit of `A` but the first. -/
def overlapRel {α} (A B : List (α × Nat)) : Prop :=
  ∃ k, k ≤ A.length ∧ A.drop (A.length - k) = B.take k ∧
    min PARSE_OVERLAP_TOKENS (sumTok (A.drop 1)) ≤ sumTok (A.drop (A.length - k))

/-- Claim C3's stated overlap relation: the shared trailing/leading run
carries at least `PARSE_OVERLAP_TOKENS` tokens, unconditionally. -/
def claimOverlapRel {α} (A B : List (α × Nat)) : Prop :=
  ∃ k, k ≤ A.length ∧ A.drop (A.length - k) = B.take k ∧
    PARSE_OVERLAP_TOKENS ≤ sumTok (A.drop (A.length - k))

theorem packChunksAux_head (fuel : Nat) {α} (x : α × Nat) (xs : List (α × Nat)) :
    (packChunksAux (fuel + 1) (x :: xs)).head? =
      some ((x :: xs).take (chunkTake ((x :: xs).map Prod.snd))) := by
  by_cases h : chunkTake ((x :: xs).map Prod.snd) < (x :: xs).length
  · simp only [packChunksAux, if_pos h, List.head?_cons]
  · simp only [packChunksAux, if_neg h, List.head?_cons]

/-- Core step: the chunk cut at `chunkTake` overlaps (in the sense of
`overlapRel`) with the next chunk the loop would cut after backtracking. -/
theorem packChunk_overlapRel {α} (x : α × Nat) (xs : List (α × Nat))
    (hlt : chunkTake ((x :: xs).map Prod.snd) < (x :: xs).length) :
    overlapRel ((x :: xs).take (chunkTake ((x :: xs).map Prod.snd)))
      (((x :: xs).drop (chunkTake ((x :: xs).map Prod.snd) -
          overlapLen 0 (((((x :: xs).take (chunkTake ((x :: xs).map Prod.snd))).drop 1).map Prod.snd).reverse))).take
        (chunkTake (((x :: xs).drop (chunkTake ((x :: xs).map Prod.snd) -
          overlapLen 0 (((((x :: xs).take (chunkTake ((x :: xs).map Prod.snd))).drop 1).map Prod.snd).reverse))).map Prod.snd))) := by
  set L : List (α × Nat) := x :: xs with hL
  set n := chunkTake (L.map Prod.snd) with hn
  set A := L.take n with hA
  set D1 := A.drop 1 with hD1
  set k := overlapLen 0 ((D1.map Prod.snd).reverse) with hk
  set B' := L.drop (n - k) with hB'
  set n' := chunkTake (B'.map Prod.snd) with hn'
  -- basic counting facts
  have hmapcons : L.map Prod.snd = x.2 :: xs.map Prod.snd := by simp [hL]
  have hnval : n = 1 + chunkTakeGo x.2 (xs.map Prod.snd) := by
    rw [hn, hmapcons, chunkTake]
  have hn1 : 1 ≤ n := by omega
  have hnle : n ≤ L.length := by
    have := chunkTake_le (L.map Prod.snd)
    simpa using this
  have hAlen : A.length = n := by
    rw [hA, List.length_take, Nat.min_eq_left hnle]
  have hD1len : D1.length = n - 1 := by
    rw [hD1, List.length_drop, hAlen]
  have hkle : k ≤ n - 1 := by
    have := overlapLen_le ((D1.map Prod.snd).reverse) 0
    rw [hk]
    simpa [hD1len] using this
  have hnk1 : 1 ≤ n - k := by omega
  have hB'len : B'.length = L.length - (n - k) := by
    rw [hB', List.length_drop]
  have hkB' : k + 1 ≤ B'.length := by omega
  -- the shared run: trailing k units of A = leading k units of B'
  have hshare : A.drop (n - k) = B'.take k := by
    rw [hA, hB', List.drop_take]
    congr 1
    omega
  -- token sum of the shared run, via the reversed backtracking input
  have hdropdrop : A.drop (n - k) = D1.drop (n - 1 - k) := by
    rw [hD1, List.drop_drop]
    congr 1
    omega
  have hlen1 : (D1.map Prod.snd).length = n - 1 := by rw [List.length_map, hD1len]
  have hsumrev : ((D1.map Prod.snd).reverse.take k).sum = sumTok (A.drop (n - k)) := by
    rw [sum_reverse_take, hlen1, hdropdrop, sumTok]
    simp [List.map_drop]
  -- the overlap token guarantee
  have hoverlap : min PARSE_OVERLAP_TOKENS (sumTok D1) ≤ sumTok (A.drop (n - k)) := by
    rcases overlapLen_spec ((D1.map Prod.snd).reverse) 0 with hsp | hsp
    · have hsp' : PARSE_OVERLAP_TOKENS ≤ ((D1.map Prod.snd).reverse.take k).sum := by
        rw [hk]
        simpa using hsp
      rw [hsumrev] at hsp'
      exact le_trans (min_le_left _ _) hsp'
    · have hkval : k = n - 1 := by
        rw [hk, hsp, List.length_reverse, List.length_map, hD1len]
      have hAD : A.drop (n - k) = D1 := by
        rw [hdropdrop, hkval]
        simp
      rw [hAD]
      exact min_le_right _ _
  -- the sums of D1's prefixes are bounded when the chunk kept ≥ 2 units
  have hD1map : D1.map Prod.snd = (xs.map Prod.snd).take (n - 1) := by
    rw [hD1, List.map_drop, hA, List.map_take, hmapcons]
    rw [List.drop_take]  -- ((x.2 :: _).take n).drop 1 = ((x.2 :: _).drop 1).take (n-1)
    simp
  have hD1sum : 1 ≤ k → sumTok D1 ≤ PARSE_MAX_TOKENS := by
    intro hk1
    rcases chunkTakeGo_sum (xs.map Prod.snd) x.2 with hz | hz
    · omega
    · rw [sumTok, hD1map]
      have : n - 1 = chunkTakeGo x.2 (xs.map Prod.snd) := by omega
      rw [this]
      omega
  -- the next chunk swallows the whole overlap: k ≤ n'
  have hswallow : k ≤ n' := by
    rcases Nat.eq_zero_or_pos k with hk0 | hk1
    · omega
    · obtain ⟨u, B'', hB''⟩ : ∃ u B'', B' = u :: B'' := by
        cases hcase : B' with
        | nil =>
          rw [hcase] at hkB'
          simp at hkB'
        | cons u B'' => exact ⟨u, B'', rfl⟩
      have hn'val : n' = 1 + chunkTakeGo u.2 (B''.map Prod.snd) := by
        rw [hn', hB'', List.map_cons, chunkTake]
      have hbound : ∀ i, 1 ≤ i → i ≤ k - 1 →
          u.2 + ((B''.map Prod.snd).take i).sum ≤ PARSE_MAX_TOKENS := by
        intro i h1i hik
        have step1 : u.2 + ((B''.map Prod.snd).take i).sum = ((B'.map Prod.snd).take (i + 1)).sum := by
          rw [hB'', List.map_cons, List.take_succ_cons, List.sum_cons]
        have step2 : ((B'.map Prod.snd).take (i + 1)).sum ≤ ((B'.map Prod.snd).take k).sum :=
          sum_take_mono _ (by omega)
        have step3 : ((B'.map Prod.snd).take k).sum = sumTok (A.drop (n - k)) := by
          rw [← List.map_take, ← hshare, sumTok]
        have step4 : sumTok (A.drop (n - k)) ≤ sumTok D1 := by
          rw [hdropdrop, sumTok, sumTok, List.map_drop]
          exact sum_drop_le _ _
        have step5 := hD1sum hk1
        omega
      have := chunkTakeGo_ge (B''.map Prod.snd) u.2 (k - 1)
        (by rw [List.length_map]; have : B''.length = B'.length - 1 := by rw [hB'']; simp
            omega)
        hbound
      omega
  -- assemble
  refine ⟨k, by omega, ?_, ?_⟩
  · rw [hAlen, hshare, List.take_take, Nat.min_eq_left hswallow]
  · rw [hAlen]
    exact hoverlap

theorem packChunksAux_chain {α} (fuel : Nat) :
    ∀ l : List (α × Nat), l.length ≤ fuel →
      List.Chain' overlapRel (packChunksAux fuel l) := by
  induction fuel with
  | zero =>
    intro l hl
    cases l with
    | nil => simp [packChunksAux]
    | cons x xs => simp at hl
  | succ fuel ih =>
    intro l hl
    cases l with
    | nil => simp [packChunksAux]
    | cons x xs =>
      by_cases hlt : chunkTake ((x :: xs).map Prod.snd) < (x :: xs).length
      · have hstep : packChunksAux (fuel + 1) (x :: xs) =
            (x :: xs).take (chunkTake ((x :: xs).map Prod.snd)) ::
              packChunksAux fuel ((x :: xs).drop (chunkTake ((x :: xs).map Prod.snd) -
                overlapLen 0 (((((x :: xs).take (chunkTake ((x :: xs).map Prod.snd))).drop 1).map Prod.snd).reverse))) := by
          simp only [packChunksAux, if_pos hlt]
        rw [hstep]
        have hn1 : 1 ≤ chunkTake ((x :: xs).map Prod.snd) := by
          rw [List.map_cons, chunkTake]
          omega
        have hnle : chunkTake ((x :: xs).map Prod.snd) ≤ (x :: xs).length := le_of_lt hlt
        have hkle : overlapLen 0 (((((x :: xs).take (chunkTake ((x :: xs).map Prod.snd))).drop 1).map Prod.snd).reverse)
            ≤ chunkTake ((x :: xs).map Prod.snd) - 1 := by
          have h1 := overlapLen_le (((((x :: xs).take (chunkTake ((x :: xs).map Prod.snd))).drop 1).map Prod.snd).reverse) 0
          have h2 : (((((x :: xs).take (chunkTake ((x :: xs).map Prod.snd))).drop 1).map Prod.snd).reverse).length
              = chunkTake ((x :: xs).map Prod.snd) - 1 := by
            rw [List.length_reverse, List.length_map, List.length_drop, List.length_take,
              Nat.min_eq_left hnle]
          omega
        have hdlen : ((x :: xs).drop (chunkTake ((x :: xs).map Prod.snd) -
            overlapLen 0 (((((x :: xs).take (chunkTake ((x :: xs).map Prod.snd))).drop 1).map Prod.snd).reverse))).length ≤ fuel := by
          rw [List.length_drop]
          simp only [List.length_cons] at hl hlt ⊢
          omega
        refine List.chain'_cons'.mpr ⟨?_, ih _ hdlen⟩
        intro B hB
        obtain ⟨u, B'', hU⟩ : ∃ u B'', (x :: xs).drop (chunkTake ((x :: xs).map Prod.snd) -
            overlapLen 0 (((((x :: xs).take (chunkTake ((x :: xs).map Prod.snd))).drop 1).map Prod.snd).reverse)) = u :: B'' := by
          cases hcase : (x :: xs).drop (chunkTake ((x :: xs).map Prod.snd) -
              overlapLen 0 (((((x :: xs).take (chunkTake ((x :: xs).map Prod.snd))).drop 1).map Prod.snd).reverse)) with
          | nil =>
            have := congrArg List.length hcase
            rw [List.length_drop] at this
            simp only [List.length_cons, List.length_nil] at this hlt
            omega
          | cons u B'' => exact ⟨u, B'', rfl⟩
        obtain ⟨fuel', rfl⟩ : ∃ f', fuel = f' + 1 := by
          refine ⟨fuel - 1, ?_⟩
          have := congrArg List.length hU
          rw [List.length_drop] at this
          simp only [List.length_cons] at this hl hlt
          omega
        rw [hU, packChunksAux_head] at hB
        simp only [Option.mem_def, Option.some.injEq] at hB
        subst hB
        have hrel := packChunk_overlapRel x xs hlt
        rw [hU] at hrel
        exact hrel
      · have hstep : packChunksAux (fuel + 1) (x :: xs) =
            [(x :: xs).take (chunkTake ((x :: xs).map Prod.snd))] := by
          simp only [packChunksAux, if_neg hlt]
        rw [hstep]
        simp

/-- Every iteration of the packing loop consumes at least one unit, so fuel
`l.length` suffices; adjacent chunks always satisfy `overlapRel`. -/
theorem packChunks_chain {α} (l : List (α × Nat)) :
    List.Chain' overlapRel (packChunks l) :=
  packChunksAux_chain l.length l le_rfl

/-- Claim C3, amended: for every text-document parse, consecutive chunks
`c_i, c_{i+1}` of the chunker share a run of whole units — the trailing `k`
units of `c_i` are exactly the leading `k` units of `c_{i+1}` — and that
run's token total is at least `PARSE_OVERLAP_TOKENS` *unless* the run
already comprises every unit of `c_i` except its first (the backtracking
loop of `_build_text_chunks` never steps past the chunk's second unit, so a
chunk whose units beyond the first carry fewer than `PARSE_OVERLAP_TOKENS`
tokens overlaps by only those units — possibly zero). -/
theorem textChunks_overlap (encode : String → List Nat) (decode : List Nat → String)
    (pageData : List PageData) :
    List.Chain' overlapRel (packChunks (unitsOfPages encode decode pageData)) :=
  packChunks_chain _

/-! ### Claim C3 counterexample -/

/-- A tokenizer under which every character encodes to 513 tokens. -/
def encTimes513 : String → List Nat := fun s => List.replicate (513 * s.length) 0

def decEmpty : List Nat → String := fun _ => ""

def pagesC3 : List PageData := [{ page := 1, lines := [{ text := "a" }, { text := "b" }] }]

def unitC3a : DocUnit := { id := "1", type := "text", text := "a", location := { page := some 1 } }

def unitC3b : DocUnit := { id := "2", type := "text", text := "b", location := { page := some 1 } }

set_option maxRecDepth 20000 in
theorem textChunksPacked :
    packChunks (unitsOfPages encTimes513 decEmpty pagesC3) =
      [[(unitC3a, 513)], [(unitC3b, 513)]] := by
  decide

/-- Claim C3 is false on the code: a document of two 513-token lines is cut
into two single-unit chunks (513 + 513 > `PARSE_MAX_TOKENS`); the
backtracking loop may not step past the chunk's second unit, so the chunks
share no units at all — fewer than `PARSE_OVERLAP_TOKENS = 128` trailing
tokens. -/
theorem textChunksOverlapClaim_false :
    ¬ List.Chain' claimOverlapRel (packChunks (unitsOfPages encTimes513 decEmpty pagesC3)) := by
  rw [textChunksPacked]
  intro h
  obtain ⟨hrel, -⟩ := List.chain'_cons.mp h
  obtain ⟨k, hk, heq, hsum⟩ := hrel
  simp only [List.length_cons, List.length_nil] at hk
  interval_cases k
  · exact absurd hsum (by decide)
  · exact absurd heq (by decide)

/-! ## Table parsing and chunking (`backend/pipeline/convert.py`)

`Parser._build_table_data` (lines 452-485), `Parser._build_table_chunks`
(lines 487-539) and `Parser._truncate_units` (lines 541-555).  `tok` stands
for `len(tokenizer.encode(·))`. -/

/-- Python `str.replace` for one-character patterns. -/
def replaceChar (a b : Char) (s : String) : String :=
  ⟨s.data.map (fun c => if c = a then b else c)⟩

/-- `str(value).replace("\n", " ").replace("\r", " ").strip()` (line 471). -/
def cleanCellValue (v : String) : String :=
  strTrim (replaceChar '\r' ' ' (replaceChar '\n' ' ' v))

/-- One row of `_build_table_data`'s column loop (lines 464-480): the pipe
row values and the cells entered into the dict (only non-empty cleaned
values become cells). -/
def rowCells (rowIdx : Nat) (row : List (Option String)) (maxCol : Nat) :
    List String × List (String × Cell) :=
  let colData := (List.range maxCol).map (fun colIdx =>
    let colLetter := getColumnLetter (colIdx + 1)
    let coord := colLetter ++ toString rowIdx
    match row.getD colIdx none with
    | some v =>
      let clean := cleanCellValue v
      (clean, if clean ≠ "" then [(coord, (⟨clean, rowIdx, colLetter⟩ : Cell))] else [])
    | none => ("", []))
  (colData.map Prod.fst, colData.flatMap Prod.snd)

/-- `Parser._build_table_data`: pipe-delimited text and the cells dict. -/
def buildTableData (rows : List (List (Option String))) (maxRow maxCol : Nat) :
    String × List (String × Cell) :=
  if maxRow = 0 ∨ maxCol = 0 then ("(Empty sheet)", [])
  else
    let rowData := ((rows.take maxRow).enum).map (fun p => rowCells (p.1 + 1) p.2 maxCol)
    ("\n".intercalate (rowData.map (fun r => " | ".intercalate r.1)),
      rowData.flatMap Prod.snd)

/-- The per-sheet input of `_build_table_chunks` (an entry of `sheet_data`). -/
structure SheetInfo where
  sheet_name : String
  text : String
  cells : List (String × Cell)
  dimensions : Dimensions
deriving DecidableEq, Repr

/-- `units.sort(key=lambda u: (u.location.row, u.location.col))` (line 510). -/
def sortRowCol (units : List DocUnit) : List DocUnit :=
  stableSort (fun a b =>
    pairLe (a.location.row.getD 0, a.location.col.getD "")
      (b.location.row.getD 0, b.location.col.getD "")) units

/-- Cell-units of a sheet (lines 499-508). -/
def cellsToUnits (sheetName : String) (cells : List (String × Cell)) : List DocUnit :=
  cells.map (fun p =>
    { id := p.1, type := "table", text := p.2.value,
      location := { sheet := some sheetName, row := some p.2.row, col := some p.2.col } })

/-- Inner loop of `Parser._truncate_units` after the first unit was taken. -/
def truncGo (tok : String → Nat) (maxT : Nat) : List DocUnit → Nat → List DocUnit × Nat
  | [], total => ([], total)
  | u :: us, total =>
    let t := tok u.text
    if maxT < total + t then ([], total)
    else
      let r := truncGo tok maxT us (total + t)
      (u :: r.1, r.2)

/-- `Parser._truncate_units` (lines 541-555): greedy prefix under the budget;
the `and result` guard means the first unit is always included. -/
def truncateUnits (tok : String → Nat) (units : List DocUnit) (maxT : Nat) :
    List DocUnit × Nat :=
  match units with
  | [] => ([], 0)
  | u :: us =>
    let r := truncGo tok maxT us (tok u.text)
    (u :: r.1, r.2)

/-- The chunk `_build_table_chunks` emits for one sheet (lines 499-537). -/
def chunkOfSheet (tok : String → Nat) (file : DFile) (s : SheetInfo) : Chunk :=
  let units := sortRowCol (cellsToUnits s.sheet_name s.cells)
  let sheetTokens := tok s.text
  if TABLE_MAX_TOKENS_PER_CHUNK < sheetTokens then
    let r := truncateUnits tok units TABLE_MAX_TOKENS_PER_CHUNK
    { file := file, units := r.1, tokens := r.2, slice := some ⟨s.sheet_name, true⟩ }
  else
    { file := file, units := units, tokens := sheetTokens, slice := some ⟨s.sheet_name, false⟩ }

/-- `Parser._build_table_chunks`: one chunk per sheet. -/
def buildTableChunks (tok : String → Nat) (sheetData : List SheetInfo) (file : DFile) :
    List Chunk :=
  sheetData.map (chunkOfSheet tok file)

def sumUnitTok (tok : String → Nat) (l : List DocUnit) : Nat :=
  (l.map (fun u => tok u.text)).sum

theorem truncGo_spec (tok : String → Nat) (maxT : Nat) (us : List DocUnit) : ∀ total,
    ∃ j, j ≤ us.length ∧
      (truncGo tok maxT us total).1 = us.take j ∧
      (truncGo tok maxT us total).2 = total + sumUnitTok tok (us.take j) ∧
      (∀ i, i < j → total + sumUnitTok tok (us.take (i + 1)) ≤ maxT) ∧
      (∀ u us', us.drop j = u :: us' →
        maxT < total + sumUnitTok tok (us.take j) + tok u.text) := by
  induction us with
  | nil =>
    intro total
    refine ⟨0, by simp, by simp [truncGo], by simp [truncGo, sumUnitTok], ?_, ?_⟩
    · intro i hi; omega
    · intro u us' h; simp at h
  | cons u us ih =>
    intro total
    by_cases h : maxT < total + tok u.text
    · refine ⟨0, by simp, by simp [truncGo, h], by simp [truncGo, h, sumUnitTok], ?_, ?_⟩
      · intro i hi; omega
      · intro u' us' h'
        simp only [List.drop_zero] at h'
        cases h'
        simpa [sumUnitTok] using h
    · obtain ⟨j, hj, h1, h2, h3, h4⟩ := ih (total + tok u.text)
      refine ⟨j + 1, by simpa using hj, ?_, ?_, ?_, ?_⟩
      · simp [truncGo, h, h1]
      · simp only [truncGo, if_neg h, List.take_succ_cons]
        rw [h2]
        simp [sumUnitTok]
        omega
      · intro i hi
        match i with
        | 0 =>
          simp only [List.take_succ_cons, List.take_zero, sumUnitTok, List.map_cons,
            List.map_nil, List.sum_cons, List.sum_nil]
          omega
        | i + 1 =>
          have := h3 i (by omega)
          simp only [List.take_succ_cons, sumUnitTok, List.map_cons, List.sum_cons] at this ⊢
          omega
      · intro u' us' h'
        simp only [List.drop_succ_cons] at h'
        have := h4 u' us' h'
        simp only [List.take_succ_cons, sumUnitTok, List.map_cons, List.sum_cons] at this ⊢
        omega

/-- Claim C4, amended: the chunker emits exactly one chunk per sheet.  If the
rendered sheet's token count is at most `TABLE_MAX_TOKENS_PER_CHUNK`
(boundary included), the chunk holds all cell-units in the chunker's
(row, column-letter) order with `slice.truncated = false` and the sheet's
token count.  Otherwise `slice.truncated = true` and the chunk holds a
leading prefix of the units that is maximal under the budget — its
cumulative token count is at most the budget *unless* the sheet's very first
unit alone exceeds the budget, in which case the chunk is exactly that one
unit (the `and result` guard of `_truncate_units` always admits the first
unit). -/
theorem tableChunks_one_per_sheet (tok : String → Nat) (file : DFile)
    (sheetData : List SheetInfo) (s : SheetInfo) :
    (buildTableChunks tok sheetData file).length = sheetData.length ∧
    (chunkOfSheet tok file s).slice =
      some ⟨s.sheet_name, decide (TABLE_MAX_TOKENS_PER_CHUNK < tok s.text)⟩ ∧
    (tok s.text ≤ TABLE_MAX_TOKENS_PER_CHUNK →
      (chunkOfSheet tok file s).units = sortRowCol (cellsToUnits s.sheet_name s.cells) ∧
      (chunkOfSheet tok file s).tokens = tok s.text) ∧
    (TABLE_MAX_TOKENS_PER_CHUNK < tok s.text →
      (chunkOfSheet tok file s).units <+: sortRowCol (cellsToUnits s.sheet_name s.cells) ∧
      (chunkOfSheet tok file s).tokens = sumUnitTok tok (chunkOfSheet tok file s).units ∧
      ((chunkOfSheet tok file s).tokens ≤ TABLE_MAX_TOKENS_PER_CHUNK ∨
        (chunkOfSheet tok file s).units =
          (sortRowCol (cellsToUnits s.sheet_name s.cells)).take 1) ∧
      (∀ u us', (sortRowCol (cellsToUnits s.sheet_name s.cells)).drop
          (chunkOfSheet tok file s).units.length = u :: us' →
        TABLE_MAX_TOKENS_PER_CHUNK < (chunkOfSheet tok file s).tokens + tok u.text)) := by
  refine ⟨by simp [buildTableChunks], ?_, ?_, ?_⟩
  · by_cases h : TABLE_MAX_TOKENS_PER_CHUNK < tok s.text
    · simp [chunkOfSheet, h]
    · simp [chunkOfSheet, h]
  · intro h
    have h' : ¬ TABLE_MAX_TOKENS_PER_CHUNK < tok s.text := by omega
    simp [chunkOfSheet, h']
  · intro h
    simp only [chunkOfSheet, if_pos h]
    cases hu : sortRowCol (cellsToUnits s.sheet_name s.cells) with
    | nil =>
      refine ⟨by simp [truncateUnits], by simp [truncateUnits, sumUnitTok], ?_, ?_⟩
      · left; simp [truncateUnits]
      · intro u us' h'
        simp [truncateUnits] at h'
    | cons u us =>
      obtain ⟨j, hj, h1, h2, h3, h4⟩ := truncGo_spec tok TABLE_MAX_TOKENS_PER_CHUNK us (tok u.text)
      have hunits : (truncateUnits tok (u :: us) TABLE_MAX_TOKENS_PER_CHUNK).1 = (u :: us).take (j + 1) := by
        simp [truncateUnits, h1]
      have htoks : (truncateUnits tok (u :: us) TABLE_MAX_TOKENS_PER_CHUNK).2 =
          sumUnitTok tok ((u :: us).take (j + 1)) := by
        simp only [truncateUnits, h2, List.take_succ_cons, sumUnitTok, List.map_cons, List.sum_cons]
      refine ⟨?_, ?_, ?_, ?_⟩
      · rw [hunits]
        exact ⟨(u :: us).drop (j + 1), List.take_append_drop _ _⟩
      · rw [hunits, htoks]
      · rcases Nat.eq_zero_or_pos j with hj0 | hj1
        · right
          rw [hunits, hj0]
        · left
          rw [htoks]
          have := h3 (j - 1) (by omega)
          have hjj : j - 1 + 1 = j := by omega
          rw [hjj] at this
          simp only [List.take_succ_cons, sumUnitTok, List.map_cons, List.sum_cons]
          simp only [sumUnitTok] at this
          omega
      · intro u' us' h'
        rw [hunits, htoks] at *
        have hlen : ((u :: us).take (j + 1)).length = j + 1 := by
          rw [List.length_take]
          simp only [List.length_cons]
          omega
        rw [hlen, List.drop_succ_cons] at h'
        have := h4 u' us' h'
        simp only [List.take_succ_cons, sumUnitTok, List.map_cons, List.sum_cons] at *
        omega

def tokLen : String → Nat := fun s => s.length

def sheetC4w : SheetInfo :=
  { sheet_name := "S", text := "ab", cells := [("A1", ⟨"ab", 1, "A"⟩)], dimensions := ⟨1, 1⟩ }

theorem tableChunks_one_per_sheet_witness :
    (buildTableChunks tokLen [sheetC4w] ⟨"f", "t.xlsx"⟩).length = 1 ∧
    (chunkOfSheet tokLen ⟨"f", "t.xlsx"⟩ sheetC4w).units =
      sortRowCol (cellsToUnits sheetC4w.sheet_name sheetC4w.cells) ∧
    (chunkOfSheet tokLen ⟨"f", "t.xlsx"⟩ sheetC4w).tokens = tokLen sheetC4w.text := by
  have h := tableChunks_one_per_sheet tokLen ⟨"f", "t.xlsx"⟩ [sheetC4w] sheetC4w
  have hfit := h.2.2.1 (by decide)
  exact ⟨h.1, hfit.1, hfit.2⟩

/-- A tokenizer assigning 8000 tokens per character. -/
def tok8000 : String → Nat := fun s => 8000 * s.length

def sheetC4 : SheetInfo :=
  { sheet_name := "S", text := "a", cells := [("A1", ⟨"a", 1, "A"⟩)], dimensions := ⟨1, 1⟩ }

/-- Claim C4 is false on the code: for a sheet whose first (and only)
cell-unit alone exceeds `TABLE_MAX_TOKENS_PER_CHUNK`, `_truncate_units`
still admits that unit (the `and result` guard), so the truncated chunk's
cumulative token count (8000) exceeds the budget (7000), contradicting the
claim's "cumulative token count is at most the budget". -/
theorem tableChunkOverBudget : ¬ (∀ (tok : String → Nat) (file : DFile) (s : SheetInfo),
    TABLE_MAX_TOKENS_PER_CHUNK < tok s.text →
    (chunkOfSheet tok file s).tokens ≤ TABLE_MAX_TOKENS_PER_CHUNK) := by
  intro hcl
  exact absurd (hcl tok8000 ⟨"f1", "t.xlsx"⟩ sheetC4 (by decide)) (by decide)

/-! ## Claim C8: unit text non-emptiness -/

theorem chunkList_ne_nil {τ} (n : Nat) :
    ∀ (l : List τ), ∀ c ∈ chunkList n l, c ≠ [] := by
  have key : ∀ (len : Nat) (l : List τ), l.length ≤ len → ∀ c ∈ chunkList n l, c ≠ [] := by
    intro len
    induction len with
    | zero =>
      intro l hl c hc
      have : l = [] := by
        cases l with
        | nil => rfl
        | cons x xs => simp at hl
      subst this
      rw [chunkList] at hc
      simp at hc
    | succ len ih =>
      intro l hl c hc
      cases l with
      | nil =>
        rw [chunkList] at hc
        simp at hc
      | cons x xs =>
        rw [chunkList] at hc
        rcases List.mem_cons.mp hc with rfl | hc'
        · simp
        · refine ih (xs.drop (n - 1)) ?_ c hc'
          rw [List.length_drop]
          simp only [List.length_cons] at hl
          omega
  intro l
  exact key l.length l le_rfl

theorem splitOversized_ne_empty (encode : String → List Nat) (decode : List Nat → String)
    (hdec : ∀ ts : List Nat, ts ≠ [] → decode ts ≠ "")
    (t : String) (ht : t ≠ "") :
    ∀ piece ∈ splitOversized encode decode t, piece ≠ "" := by
  intro piece hp
  unfold splitOversized at hp
  by_cases hlen : (encode t).length ≤ PARSE_MAX_TOKENS
  · simp only [hlen, if_true, List.mem_singleton] at hp
    subst hp
    exact ht
  · simp only [hlen, if_false, List.mem_map] at hp
    obtain ⟨c, hc, rfl⟩ := hp
    exact hdec c (chunkList_ne_nil _ _ c hc)

theorem numberPieces_text (encode : String → List Nat) :
    ∀ (n : Nat) (ps : List (Nat × Option BBox × String)) (ut : DocUnit × Nat),
      ut ∈ numberPieces encode n ps → ∃ p ∈ ps, ut.1.text = p.2.2 := by
  intro n ps
  induction ps generalizing n with
  | nil => intro ut h; simp [numberPieces] at h
  | cons p ps ih =>
    intro ut h
    rcases List.mem_cons.mp h with rfl | h'
    · exact ⟨p, List.mem_cons_self _ _, rfl⟩
    · obtain ⟨q, hq, hqt⟩ := ih (n + 1) ut h'
      exact ⟨q, List.mem_cons_of_mem _ hq, hqt⟩

/-- Claim C8, amended: every unit produced by the parser has non-empty text
*except* on the PDF/OCR path, which copies each OCR line's `content`
verbatim with no emptiness check (see `pdfEmptyUnit`).  Precisely: units
built from `make_lines` input (markdown, PowerPoint, Word/HTML sentence
splitting) are non-empty; table cells (and hence table units) are non-empty;
and text units built from any non-empty line texts are non-empty, provided
the tokenizer's `decode` of a non-empty token slice is non-empty. -/
theorem parser_units_nonempty
    (texts : List String)
    (rows : List (List (Option String))) (maxRow maxCol : Nat)
    (encode : String → List Nat) (decode : List Nat → String)
    (pageData : List PageData)
    (hdec : ∀ ts : List Nat, ts ≠ [] → decode ts ≠ "")
    (hlines : ∀ p ∈ pageData, ∀ line ∈ p.lines, line.text ≠ "") :
    (∀ l ∈ makeLines texts, l.text ≠ "") ∧
    (∀ pr ∈ (buildTableData rows maxRow maxCol).2, pr.2.value ≠ "") ∧
    (∀ ut ∈ unitsOfPages encode decode pageData, ut.1.text ≠ "") := by
  refine ⟨?_, ?_, ?_⟩
  · intro l hl
    simp only [makeLines, List.mem_map, List.mem_filter] at hl
    obtain ⟨t, ⟨ht, htr⟩, rfl⟩ := hl
    intro h0
    simp only at h0
    subst h0
    simp [strTrim] at htr
  · intro pr hpr
    unfold buildTableData at hpr
    by_cases hz : maxRow = 0 ∨ maxCol = 0
    · simp [hz] at hpr
    · simp only [hz, if_false, List.mem_flatMap, List.mem_map] at hpr
      obtain ⟨rd, ⟨p, hp, rfl⟩, hmem⟩ := hpr
      unfold rowCells at hmem
      simp only [List.mem_flatMap, List.mem_map, List.mem_range] at hmem
      obtain ⟨cd, ⟨colIdx, hcol, rfl⟩, hcd⟩ := hmem
      cases hval : p.2.getD colIdx none with
      | none =>
        rw [hval] at hcd
        simp at hcd
      | some v =>
        rw [hval] at hcd
        have hcd' : pr ∈ (if cleanCellValue v ≠ "" then
            [(getColumnLetter (colIdx + 1) ++ toString (p.1 + 1),
              (⟨cleanCellValue v, p.1 + 1, getColumnLetter (colIdx + 1)⟩ : Cell))]
          else []) := hcd
        by_cases hclean : cleanCellValue v = ""
        · simp [hclean] at hcd'
        · rw [if_pos hclean, List.mem_singleton] at hcd'
          subst hcd'
          exact hclean
  · intro ut hut
    obtain ⟨p, hp, hpt⟩ := numberPieces_text encode 1 _ ut hut
    unfold pagePieces at hp
    simp only [List.mem_flatMap, List.mem_map] at hp
    obtain ⟨pg, hpg, line, hline, piece, hpiece, rfl⟩ := hp
    rw [hpt]
    exact splitOversized_ne_empty encode decode hdec line.text
      (hlines pg hpg line hline) piece hpiece

def encChars : String → List Nat := fun s => s.data.map Char.toNat

def decX : List Nat → String := fun _ => "x"

theorem parser_units_nonempty_witness :
    (∀ l ∈ makeLines ["hello", " "], l.text ≠ "") ∧
    (∀ pr ∈ (buildTableData [[some "v"]] 1 1).2, pr.2.value ≠ "") ∧
    (∀ ut ∈ unitsOfPages encChars decX
        [{ page := 1, lines := [{ text := "hello" }] }], ut.1.text ≠ "") :=
  parser_units_nonempty ["hello", " "] [[some "v"]] 1 1 encChars decX
    [{ page := 1, lines := [{ text := "hello" }] }]
    (fun ts _ => by simp [decX])
    (by decide)

def ocrPagesC8 : List OcrPage :=
  [{ width := 1, height := 1, lines := [{ content := "", polygon := [] }] }]

/-- Claim C8 is false on the code: `_parse_pdf` copies OCR line contents
verbatim (no filtering), so an OCR page whose only line has empty `content`
yields a text unit with empty text. -/
theorem pdfEmptyUnit : ¬ (∀ (pages : List OcrPage) (ut : DocUnit × Nat),
    ut ∈ unitsOfPages encChars decX (parsePdf pages) → ut.1.text ≠ "") := by
  intro h
  exact absurd rfl
    (h ocrPagesC8
      ({ id := "1", type := "text", text := "", location := { page := some 1 } }, 0)
      (by decide))

/-! ## Citation grouping (`pipeline/citations.py`, class `Citations`)

`_expand_tag_range` (lines 23-39), `_group_sequential` (lines 41-69) and the
expansion / dedup / grouping / id-assignment part of `score_item`
(lines 169-201).  Python `int(·)` is modelled as sign-plus-digits parsing;
`str(·)` on an integer is `toString`. -/

def digitsVal (l : List Char) : Nat :=
  l.foldl (fun acc c => acc * 10 + (c.toNat - 48)) 0

/-- Python `int(s)` (succeeding exactly on an optional minus sign followed by
digits). -/
def strToInt? (s : String) : Option Int :=
  match s.data with
  | '-' :: rest =>
    if rest ≠ [] ∧ rest.all Char.isDigit then some (-(Int.ofNat (digitsVal rest))) else none
  | l => if l ≠ [] ∧ l.all Char.isDigit then some (Int.ofNat (digitsVal l)) else none

/-- `Citations._expand_tag_range`: `"45-47"` expands to `["45","46","47"]`;
a malformed or descending range expands to `[]`; a tag with no `-` passes
through. -/
def expandTagRange (tag : String) : List String :=
  if ¬ (tag.data.contains '-') then [tag]
  else
    let parts := splitOnChar '-' tag
    if parts.length ≠ 2 then []
    else
      match strToInt? (parts.getD 0 ""), strToInt? (parts.getD 1 "") with
      | some a, some b =>
        if b < a then []
        else (List.range ((b - a).toNat + 1)).map (fun k => toString (a + (k : Int)))
      | _, _ => []

/-- `sorted(set(nums))`: ascending, duplicates removed. -/
def sortedDistinct (nums : List Int) : List Int :=
  (stableSort (fun a b => decide (a ≤ b)) nums).destutter (· ≠ ·)

/-- Maximal runs of consecutive integers in a strictly ascending list
(the `_group_sequential` scan, lines 58-67). -/
def runsAux (x : Int) : List Int → List (List Int)
  | [] => [[x]]
  | y :: ys =>
    if y = x + 1 then
      match runsAux y ys with
      | [] => [[x]]
      | g :: gs => (x :: g) :: gs
    else [x] :: runsAux y ys

def runsConsec : List Int → List (List Int)
  | [] => []
  | x :: xs => runsAux x xs

/-- `Citations._group_sequential`: if no tag parses as an integer, every tag
becomes its own singleton group (in order); otherwise the *distinct, sorted*
integer tags are grouped into maximal consecutive runs and every non-numeric
tag is dropped. -/
def groupSequential (tags : List String) : List (List String) :=
  let nums := tags.filterMap strToInt?
  if nums = [] then tags.map (fun t => [t])
  else (runsConsec (sortedDistinct nums)).map (fun g => g.map (fun n => toString n))

/-- `sources[tag] if tag in sources` — dict lookup. -/
def lookupSource (sources : List (String × Source)) (tag : String) : Option Source :=
  (sources.find? (fun p => p.1 = tag)).map Prod.snd

/-- `Citations._collect_sources` (lines 129-133). -/
def collectSources (group : List String) (sources : List (String × Source)) : List Source :=
  group.filterMap (lookupSource sources)

/-- The pure part of `Citations.score_item` (lines 169-196): range
expansion, order-preserving dedup, grouping, source collection and citation
id assignment.  Returns `(citation_ids, grouped)`. -/
def scoreItemTags (text : String) (rawTags : List String)
    (sources : List (String × Source)) (itemIdx : String) :
    List String × List (String × List Source) :=
  if rawTags = [] ∨ text = "" then ([], [])
  else
    let tags := dedupFirst (rawTags.flatMap expandTagRange)
    if tags = [] then ([], [])
    else
      let groups := groupSequential tags
      let collected := (groups.enum).filterMap (fun p =>
        let sl := collectSources p.2 sources
        if sl = [] then none
        else some ("c" ++ itemIdx ++ "_" ++ toString p.1, sl))
      (collected.map Prod.fst, collected)

/-- The grouping described by claim C5, following its words: after
deduplication, partition the tags into maximal runs of consecutive integers,
keeping every non-numeric tag as its own singleton group. -/
def claimGrouping : List String → List (List String)
  | [] => []
  | t :: rest =>
    match claimGrouping rest with
    | (u :: g') :: gs =>
      match strToInt? t, strToInt? u with
      | some n, some m =>
        if m = n + 1 then (t :: u :: g') :: gs else [t] :: (u :: g') :: gs
      | _, _ => [t] :: (u :: g') :: gs
    | gs => [t] :: gs

example : expandTagRange "45-47" = ["45", "46", "47"] := by decide
example : expandTagRange "45B" = ["45B"] := by decide
example : expandTagRange "45A-45C" = [] := by decide
example : expandTagRange "7-5" = [] := by decide
example : groupSequential ["1", "2", "3", "5"] = [["1", "2", "3"], ["5"]] := by decide
example : groupSequential ["45B", "45C"] = [["45B"], ["45C"]] := by decide
example : claimGrouping ["3", "45B"] = [["3"], ["45B"]] := by decide

theorem runsAux_ne_nil (xs : List Int) (x : Int) : runsAux x xs ≠ [] := by
  cases xs with
  | nil => simp [runsAux]
  | cons y ys =>
    simp only [runsAux]
    by_cases h : y = x + 1
    · simp only [h, if_true]
      cases runsAux (x + 1) ys <;> simp
    · simp [h]

theorem runsAux_head (xs : List Int) : ∀ x, ∃ g gs, runsAux x xs = (x :: g) :: gs := by
  induction xs with
  | nil => intro x; exact ⟨[], [], rfl⟩
  | cons y ys ih =>
    intro x
    simp only [runsAux]
    by_cases h : y = x + 1
    · obtain ⟨g, gs, hg⟩ := ih y
      refine ⟨y :: g, gs, ?_⟩
      rw [if_pos h, hg]
    · exact ⟨[], runsAux y ys, by rw [if_neg h]⟩

theorem runsAux_join (xs : List Int) : ∀ x, (runsAux x xs).flatten = x :: xs := by
  induction xs with
  | nil => intro x; simp [runsAux]
  | cons y ys ih =>
    intro x
    simp only [runsAux]
    by_cases h : y = x + 1
    · simp only [h, if_true]
      have := ih (x + 1)
      cases hcase : runsAux (x + 1) ys with
      | nil => exact absurd hcase (runsAux_ne_nil _ _)
      | cons g gs =>
        rw [hcase] at this
        simp only [List.flatten_cons] at this ⊢
        rw [List.cons_append, this]
    · simp only [h, if_false, List.flatten_cons]
      rw [ih y]
      simp

theorem runsAux_nonempty (xs : List Int) : ∀ x, ∀ g ∈ runsAux x xs, g ≠ [] := by
  induction xs with
  | nil => intro x g hg; simp only [runsAux, List.mem_singleton] at hg; simp [hg]
  | cons y ys ih =>
    intro x g hg
    simp only [runsAux] at hg
    by_cases h : y = x + 1
    · rw [if_pos h] at hg
      subst h
      cases hcase : runsAux (x + 1) ys with
      | nil => exact absurd hcase (runsAux_ne_nil _ _)
      | cons g0 gs =>
        rw [hcase] at hg
        rcases List.mem_cons.mp hg with rfl | hg'
        · simp
        · refine ih (x + 1) g ?_
          rw [hcase]
          exact List.mem_cons_of_mem _ hg'
    · rw [if_neg h] at hg
      rcases List.mem_cons.mp hg with rfl | hg'
      · simp
      · exact ih y g hg'

theorem runsAux_chain (xs : List Int) : ∀ x, ∀ g ∈ runsAux x xs,
    List.Chain' (fun a b => b = a + 1) g := by
  induction xs with
  | nil => intro x g hg; simp only [runsAux, List.mem_singleton] at hg; simp [hg]
  | cons y ys ih =>
    intro x g hg
    simp only [runsAux] at hg
    by_cases h : y = x + 1
    · rw [if_pos h] at hg
      subst h
      cases hcase : runsAux (x + 1) ys with
      | nil => exact absurd hcase (runsAux_ne_nil _ _)
      | cons g0 gs =>
        rw [hcase] at hg
        obtain ⟨g', gs', hg'eq⟩ := runsAux_head ys (x + 1)
        rw [hcase] at hg'eq
        have hg0 : g0 = (x + 1) :: g' := (List.cons.injEq _ _ _ _ ▸ hg'eq).1
        rcases List.mem_cons.mp hg with rfl | hmem
        · have hchain : List.Chain' (fun a b => b = a + 1) g0 := by
            refine ih (x + 1) g0 ?_
            rw [hcase]
            exact List.mem_cons_self _ _
          rw [hg0] at hchain ⊢
          exact List.chain'_cons.mpr ⟨rfl, hchain⟩
        · refine ih (x + 1) g ?_
          rw [hcase]
          exact List.mem_cons_of_mem _ hmem
    · rw [if_neg h] at hg
      rcases List.mem_cons.mp hg with rfl | hg'
      · simp
      · exact ih y g hg'

/-- Adjacent runs are separated by a gap: the head of the next run never
continues the previous run. -/
def runGap (g h : List Int) : Prop :=
  ∀ a ∈ g.getLast?, ∀ b ∈ h.head?, b ≠ a + 1

theorem getLast?_cons_ne {β} (a : β) (l : List β) (h : l ≠ []) :
    (a :: l).getLast? = l.getLast? := by
  cases l with
  | nil => exact absurd rfl h
  | cons b bs => simp

theorem runsAux_maximal (xs : List Int) : ∀ x, List.Chain' runGap (runsAux x xs) := by
  induction xs with
  | nil => intro x; simp [runsAux]
  | cons y ys ih =>
    intro x
    simp only [runsAux]
    by_cases h : y = x + 1
    · rw [if_pos h]
      subst h
      cases hcase : runsAux (x + 1) ys with
      | nil => exact absurd hcase (runsAux_ne_nil _ _)
      | cons g0 gs =>
        have hih := ih (x + 1)
        rw [hcase] at hih
        obtain ⟨hgap, hchain⟩ := List.chain'_cons'.mp hih
        refine List.chain'_cons'.mpr ⟨?_, hchain⟩
        intro b hb
        have hg0ne : g0 ≠ [] := by
          refine runsAux_nonempty ys (x + 1) g0 ?_
          rw [hcase]
          exact List.mem_cons_self _ _
        intro a ha
        rw [getLast?_cons_ne x g0 hg0ne] at ha
        exact hgap b hb a ha
    · rw [if_neg h]
      refine List.chain'_cons'.mpr ⟨?_, ih y⟩
      intro b hb
      obtain ⟨g', gs', hg'⟩ := runsAux_head ys y
      rw [hg'] at hb
      simp only [List.head?_cons, Option.mem_def, Option.some.injEq] at hb
      subst hb
      intro a ha b hb
      simp only [List.getLast?_singleton, Option.mem_def, Option.some.injEq] at ha
      simp only [List.head?_cons, Option.mem_def, Option.some.injEq] at hb
      subst ha
      subst hb
      exact h

theorem dedupFirstAux_spec {β} [DecidableEq β] :
    ∀ (l : List β) (seen : List β),
      (dedupFirstAux seen l).Nodup ∧ (dedupFirstAux seen l).Sublist l ∧
      ∀ x ∈ dedupFirstAux seen l, x ∉ seen := by
  intro l
  induction l with
  | nil => intro seen; simp [dedupFirstAux]
  | cons x xs ih =>
    intro seen
    by_cases h : x ∈ seen
    · obtain ⟨h1, h2, h3⟩ := ih seen
      exact ⟨by simpa [dedupFirstAux, h] using h1,
        by simpa [dedupFirstAux, h] using h2.cons x,
        by simpa [dedupFirstAux, h] using h3⟩
    · obtain ⟨h1, h2, h3⟩ := ih (x :: seen)
      refine ⟨?_, ?_, ?_⟩
      · simp only [dedupFirstAux, h, if_false]
        refine List.nodup_cons.mpr ⟨?_, h1⟩
        intro hmem
        exact absurd (List.mem_cons_self x seen) (h3 x hmem)
      · simp only [dedupFirstAux, h, if_false]
        exact h2.cons₂ x
      · simp only [dedupFirstAux, h, if_false]
        intro z hz
        rcases List.mem_cons.mp hz with rfl | hz'
        · exact h
        · intro hzs
          exact absurd (List.mem_cons_of_mem x hzs) (h3 z hz')

theorem dedupFirst_nodup {β} [DecidableEq β] (l : List β) : (dedupFirst l).Nodup :=
  (dedupFirstAux_spec l []).1

theorem dedupFirst_sublist {β} [DecidableEq β] (l : List β) : (dedupFirst l).Sublist l :=
  (dedupFirstAux_spec l []).2.1

theorem sortedDistinct_sorted (nums : List Int) :
    List.Sorted (· < ·) (sortedDistinct nums) := by
  have hsorted : List.Sorted (· ≤ ·) (stableSort (fun a b => decide (a ≤ b)) nums) := by
    have h := sorted_stableSort (fun a b : Int => decide (a ≤ b))
      (fun a b => by rcases le_total a b with h | h <;> simp [h])
      (fun a b c h1 h2 => by
        simp only [decide_eq_true_eq] at *
        exact le_trans h1 h2) nums
    exact h.imp (fun h => of_decide_eq_true h)
  have hsub : (sortedDistinct nums).Sublist (stableSort (fun a b => decide (a ≤ b)) nums) := by
    unfold sortedDistinct
    exact List.destutter_sublist _ _
  have hle : List.Sorted (· ≤ ·) (sortedDistinct nums) := List.Pairwise.sublist hsub hsorted
  have hne : List.Chain' (· ≠ ·) (sortedDistinct nums) := by
    unfold sortedDistinct
    exact List.destutter_is_chain' _ _
  have hchainle : List.Chain' (· ≤ ·) (sortedDistinct nums) := hle.chain'
  have hlt : List.Chain' (· < ·) (sortedDistinct nums) := by
    rw [List.chain'_iff_get] at hchainle hne ⊢
    intro i h
    exact lt_of_le_of_ne (hchainle i h) (hne i h)
  exact List.chain'_iff_pairwise.mp hlt

/-- Claim C5, amended: the citation scorer deduplicates the expanded tags
preserving first-occurrence order.  If *no* deduplicated tag parses as an
integer, every tag becomes its own singleton group, in order.  Otherwise the
*distinct numeric* tags are sorted ascending and partitioned into maximal
runs of consecutive integers, and every non-numeric tag is discarded (it
does *not* become a singleton group).  The `g`-th group of item `i` that
resolves to at least one source receives citation id `"c<i>_<g>"`;
unresolvable groups receive none. -/
theorem citationGrouping_spec (tags : List String) (text : String) (rawTags : List String)
    (sources : List (String × Source)) (itemIdx : String) :
    (dedupFirst (rawTags.flatMap expandTagRange)).Nodup ∧
    (dedupFirst (rawTags.flatMap expandTagRange)).Sublist (rawTags.flatMap expandTagRange) ∧
    (tags.filterMap strToInt? = [] → groupSequential tags = tags.map (fun t => [t])) ∧
    (tags.filterMap strToInt? ≠ [] →
      groupSequential tags =
        (runsConsec (sortedDistinct (tags.filterMap strToInt?))).map
          (fun g => g.map (fun n => toString n)) ∧
      (runsConsec (sortedDistinct (tags.filterMap strToInt?))).flatten =
        sortedDistinct (tags.filterMap strToInt?) ∧
      List.Sorted (· < ·) (sortedDistinct (tags.filterMap strToInt?)) ∧
      (∀ g ∈ runsConsec (sortedDistinct (tags.filterMap strToInt?)),
        g ≠ [] ∧ List.Chain' (fun a b => b = a + 1) g) ∧
      List.Chain' runGap (runsConsec (sortedDistinct (tags.filterMap strToInt?)))) ∧
    (rawTags ≠ [] → text ≠ "" → dedupFirst (rawTags.flatMap expandTagRange) ≠ [] →
      (scoreItemTags text rawTags sources itemIdx).1 =
        (groupSequential (dedupFirst (rawTags.flatMap expandTagRange))).enum.filterMap
          (fun p => if collectSources p.2 sources = [] then none
            else some ("c" ++ itemIdx ++ "_" ++ toString p.1))) := by
  refine ⟨dedupFirst_nodup _, dedupFirst_sublist _, ?_, ?_, ?_⟩
  · intro h
    simp [groupSequential, h]
  · intro h
    refine ⟨by simp [groupSequential, h], ?_, sortedDistinct_sorted _, ?_, ?_⟩
    · cases hc : sortedDistinct (tags.filterMap strToInt?) with
      | nil => simp [runsConsec]
      | cons x xs => simpa [runsConsec] using runsAux_join xs x
    · intro g hg
      cases hc : sortedDistinct (tags.filterMap strToInt?) with
      | nil =>
        rw [hc] at hg
        simp [runsConsec] at hg
      | cons x xs =>
        rw [hc] at hg
        simp only [runsConsec] at hg
        exact ⟨runsAux_nonempty xs x g hg, runsAux_chain xs x g hg⟩
    · cases hc : sortedDistinct (tags.filterMap strToInt?) with
      | nil => simp [runsConsec]
      | cons x xs => simpa [runsConsec] using runsAux_maximal xs x
  · intro h1 h2 h3
    have hcond : ¬ (rawTags = [] ∨ text = "") := by
      intro hor
      rcases hor with hor | hor
      · exact h1 hor
      · exact h2 hor
    simp only [scoreItemTags, if_neg hcond, if_neg h3]
    rw [List.map_filterMap]
    refine List.filterMap_congr ?_
    intro p _
    by_cases hsl : collectSources p.2 sources = []
    · simp [hsl]
    · simp [hsl]

def srcC5 : Source :=
  { unit := { id := "3", type := "text", text := "rev", location := { page := some 1 } },
    file := ⟨"f1", "doc"⟩, meta := {} }

theorem citationGrouping_spec_witness :
    groupSequential ["3", "5", "4"] = [["3", "4", "5"]] ∧
    (scoreItemTags "Revenue rose [3]." ["3-5", "45B"] [("3", srcC5)] "0").1 = ["c0_0"] := by
  have h := citationGrouping_spec ["3", "5", "4"] "Revenue rose [3]." ["3-5", "45B"]
    [("3", srcC5)] "0"
  refine ⟨?_, ?_⟩
  · have hg := (h.2.2.2.1 (by decide)).1
    rw [hg]
    decide
  · have hc := h.2.2.2.2 (by decide) (by decide) (by decide)
    rw [hc]
    decide

/-- Claim C5 as stated requires `_group_sequential` to keep every
non-numeric tag as its own singleton group. -/
def claimC5 : Prop := ∀ tags : List String, groupSequential tags = claimGrouping tags

/-- Claim C5 is false on the code: on tags `["3", "45B"]` the scorer finds a
numeric tag, so it groups only the numeric tags (`[["3"]]`) and silently
*drops* the non-numeric `"45B"` instead of keeping it as a singleton group
(`[["3"], ["45B"]]`); moreover grouping is over the *sorted set* of numeric
tags, not the first-occurrence order. -/
theorem citationGroupingDropsNonNumeric : ¬ claimC5 := by
  intro h
  have h1 := h ["3", "45B"]
  have h2 : groupSequential ["3", "45B"] = [["3"]] := by decide
  have h3 : claimGrouping ["3", "45B"] = [["3"], ["45B"]] := by decide
  rw [h2, h3] at h1
  exact absurd h1 (by decide)

/-! ## Orchestrator progress milestones (`backend/pipeline/main.py`,
`Pipeline.run_with_progress`, lines 78-155)

The control flow is modelled as the sequence of `report_progress` events.
A run is parameterised by the point of failure: `none` is a successful run;
`some k` means the awaited stage following the `(k+1)`-th milestone event
raised a non-cancellation exception (the `except Exception` handler then
emits `error@-1`; `asyncio.CancelledError` re-raises without emitting). -/

def pipelineMilestones (mode : String) : List (String × Int) :=
  [("planning", 5), ("searching", 15), ("retrieving", 35)]
  ++ (if mode = "both" ∨ mode = "response_only" then [("generating", 45), ("scoring", 80)] else [])

def runWithProgressEvents (mode : String) (failStep : Option Nat) : List (String × Int) :=
  match failStep with
  | none => pipelineMilestones mode ++ [("complete", 100)]
  | some k => (pipelineMilestones mode).take (k + 1) ++ [("error", -1)]

/-- Claim C7's milestone sequence. -/
def claimC7 : Prop :=
  runWithProgressEvents "both" none =
    [("planning", 10), ("searching", 25), ("retrieving", 40), ("generating", 50),
      ("finalizing", 75), ("complete", 100)]

/-- Claim C7 is false on the code: the orchestrator's milestones are
`planning@5, searching@15, retrieving@35, generating@45, scoring@80,
complete@100` — neither the percentages nor the stage name `finalizing`
match the claim (the fifth stage is `scoring`). -/
theorem milestonesDiffer : ¬ claimC7 := by
  unfold claimC7
  decide

/-- Claim C7, amended: on success (default `execution_mode="both"`) the
orchestrator emits exactly `planning@5, searching@15, retrieving@35,
generating@45, scoring@80, complete@100`, in that order; when the stage
after the `(k+1)`-th milestone fails with a non-cancellation error, it emits
exactly the milestones reached so far followed by `error@-1` as the last
event, and no `complete` event. -/
theorem runWithProgress_milestones :
    runWithProgressEvents "both" none =
      [("planning", 5), ("searching", 15), ("retrieving", 35), ("generating", 45),
        ("scoring", 80), ("complete", 100)] ∧
    (∀ k : Fin 5,
      runWithProgressEvents "both" (some k.val) =
        (pipelineMilestones "both").take (k.val + 1) ++ [("error", -1)] ∧
      ("complete", (100 : Int)) ∉ runWithProgressEvents "both" (some k.val) ∧
      (runWithProgressEvents "both" (some k.val)).getLast? = some ("error", -1)) := by
  decide

/-! ## Embedding batch retry (`backend/clients/cosmos.py`,
`CosmosVectorClient.get_embeddings`, lines 68-107)

The external embedding service is a function `svc batch attempt`; the
observable behaviour is the list of events (service calls and sleeps) plus
the overall result.  The outer `except` wraps any error in
`CosmosVectorError("Failed to generate embeddings: ...")`. -/

inductive EmbEvent where
  | sleep (d : ℚ)
  | call (batch : List String) (attempt : Nat)
deriving DecidableEq, Repr

/-- Contiguous-sublist test on character lists. -/
def listSub (needle : List Char) : List Char → Bool
  | [] => needle.isEmpty
  | c :: t => needle.isPrefixOf (c :: t) || listSub needle t

def containsSubstr (needle hay : String) : Bool := listSub needle.data hay.data

def strLower (s : String) : String := ⟨s.data.map Char.toLower⟩

/-- `"429" in str(e) or "rate limit" in str(e).lower()` (line 92). -/
def rateLimited (e : String) : Bool :=
  containsSubstr "429" e || containsSubstr "rate limit" (strLower e)

/-- The per-batch loop of `get_embeddings` (lines 78-101): on a rate-limited
failure, sleep `2×COSMOS_EMBEDDING_BATCH_DELAY` and retry the same batch
exactly once; a second failure, or any non-rate-limited failure, stops the
loop with that error.  On success with batches remaining, sleep
`COSMOS_EMBEDDING_BATCH_DELAY` between batches (skipped on the retry path,
as in the source). -/
def embedBatches (svc : List String → Nat → Except String (List (List ℚ))) :
    List (List String) → List EmbEvent × Except String (List (List ℚ))
  | [] => ([], .ok [])
  | b :: rest =>
    match svc b 0 with
    | .ok embs =>
      let sleeps : List EmbEvent :=
        if rest ≠ [] then [.sleep COSMOS_EMBEDDING_BATCH_DELAY] else []
      let r := embedBatches svc rest
      (.call b 0 :: sleeps ++ r.1, r.2.map (fun es => embs ++ es))
    | .error e =>
      if rateLimited e then
        match svc b 1 with
        | .ok embs =>
          let r := embedBatches svc rest
          (.call b 0 :: .sleep (2 * COSMOS_EMBEDDING_BATCH_DELAY) :: .call b 1 :: r.1,
            r.2.map (fun es => embs ++ es))
        | .error e2 =>
          ([.call b 0, .sleep (2 * COSMOS_EMBEDDING_BATCH_DELAY), .call b 1], .error e2)
      else ([.call b 0], .error e)

/-- `CosmosVectorClient.get_embeddings` on a list input: batches of at most
`COSMOS_MAX_EMBEDDING_BATCH_SIZE`; any error is wrapped in
`CosmosVectorError`. -/
def getEmbeddings (svc : List String → Nat → Except String (List (List ℚ)))
    (texts : List String) : List EmbEvent × Except String (List (List ℚ)) :=
  if texts = [] then ([], .error "Failed to generate embeddings: Text input cannot be empty")
  else
    let r := embedBatches svc (chunkList COSMOS_MAX_EMBEDDING_BATCH_SIZE texts)
    (r.1, match r.2 with
      | .ok es => .ok es
      | .error e => .error ("Failed to generate embeddings: " ++ e))

/-- No batch is ever attempted more than twice (attempts are numbered 0 and
1). -/
theorem embedBatches_attempts (svc : List String → Nat → Except String (List (List ℚ))) :
    ∀ (bs : List (List String)) (b' : List String) (a : Nat),
      EmbEvent.call b' a ∈ (embedBatches svc bs).1 → a ≤ 1 := by
  intro bs
  induction bs with
  | nil => intro b' a h; simp [embedBatches] at h
  | cons b rest ih =>
    intro b' a h
    simp only [embedBatches] at h
    split at h
    · cases h with
      | head => omega
      | tail _ h =>
        have h2 : EmbEvent.call b' a ∈
            (if rest ≠ [] then [EmbEvent.sleep COSMOS_EMBEDDING_BATCH_DELAY] else [])
              ++ (embedBatches svc rest).1 := h
        rw [List.mem_append] at h2
        rcases h2 with h2 | h2
        · by_cases hr : rest ≠ [] <;> simp [hr] at h2
        · exact ih b' a h2
    · split at h
      · split at h
        · cases h with
          | head => omega
          | tail _ h =>
            cases h with
            | tail _ h =>
              cases h with
              | head => omega
              | tail _ h => exact ih b' a h
        · cases h with
          | head => omega
          | tail _ h =>
            cases h with
            | tail _ h =>
              cases h with
              | head => omega
              | tail _ h => cases h
      · cases h with
        | head => omega
        | tail _ h => cases h

/-- Claim C9: if a batch's service call fails with an error whose text
contains `"429"` or the phrase `"rate limit"` (case-insensitively), the
client sleeps `2×COSMOS_EMBEDDING_BATCH_DELAY` and retries that same batch
exactly once — a second failure propagates, and a retry success continues
with the remaining batches; a failure not matching those shapes propagates
immediately without any retry.  Attempts never exceed one retry
(`embedBatches_attempts` is the standalone bound). -/
theorem embeddingRetry (svc : List String → Nat → Except String (List (List ℚ)))
    (b : List String) (rest : List (List String)) (e : String)
    (hfail : svc b 0 = .error e) :
    (rateLimited e = true →
      (embedBatches svc (b :: rest)).1.take 3 =
        [EmbEvent.call b 0, EmbEvent.sleep (2 * COSMOS_EMBEDDING_BATCH_DELAY),
          EmbEvent.call b 1] ∧
      (∀ e2, svc b 1 = .error e2 →
        embedBatches svc (b :: rest) =
          ([EmbEvent.call b 0, EmbEvent.sleep (2 * COSMOS_EMBEDDING_BATCH_DELAY),
            EmbEvent.call b 1], .error e2)) ∧
      (∀ embs, svc b 1 = .ok embs →
        (embedBatches svc (b :: rest)).2 =
          (embedBatches svc rest).2.map (fun es => embs ++ es))) ∧
    (rateLimited e = false →
      embedBatches svc (b :: rest) = ([EmbEvent.call b 0], .error e)) ∧
    (∀ (bs : List (List String)) (b' : List String) (a : Nat),
      EmbEvent.call b' a ∈ (embedBatches svc bs).1 → a ≤ 1) := by
  refine ⟨?_, ?_, embedBatches_attempts svc⟩
  · intro hrl
    refine ⟨?_, ?_, ?_⟩
    · simp only [embedBatches, hfail, hrl, if_true]
      cases hsvc1 : svc b 1 <;> simp
    · intro e2 hsvc1
      simp [embedBatches, hfail, hrl, hsvc1]
    · intro embs hsvc1
      simp [embedBatches, hfail, hrl, hsvc1]
  · intro hrl
    simp [embedBatches, hfail, hrl]

def svc429 : List String → Nat → Except String (List (List ℚ)) :=
  fun _ attempt => if attempt = 0 then .error "429 Too Many Requests" else .ok [[1]]

theorem embeddingRetry_witness :
    (embedBatches svc429 [["t"]]).1.take 3 =
      [EmbEvent.call ["t"] 0, EmbEvent.sleep (2 * COSMOS_EMBEDDING_BATCH_DELAY),
        EmbEvent.call ["t"] 1] ∧
    (embedBatches svc429 [["t"]]).2 = .ok [[1]] := by
  have h := embeddingRetry svc429 ["t"] [] "429 Too Many Requests" rfl
  have h1 := (h.1 (by decide)).1
  have h2 := (h.1 (by decide)).2.2 [[1]] rfl
  refine ⟨h1, ?_⟩
  rw [h2]
  rfl

set_option maxRecDepth 20000 in
theorem textChunks_overlap_witness :
    List.Chain' overlapRel (packChunks (unitsOfPages encTimes513 decEmpty pagesC3)) :=
  textChunks_overlap encTimes513 decEmpty pagesC3

theorem selectChunks_budgeted_selection_witness :
    List.Sorted (fun a b : Match => b.score ≤ a.score) (scoreDescSort [matchA, matchB]) ∧
    List.Perm (scoreDescSort [matchA, matchB]) [matchA, matchB] ∧
    ∃ k, k ≤ (scoreDescSort [matchA, matchB]).length ∧
      (selectChunks [matchA, matchB] sheetsEmpty).1 = (scoreDescSort [matchA, matchB]).take k ∧
      (selectChunks [matchA, matchB] sheetsEmpty).2 =
        sumEff sheetsEmpty ((scoreDescSort [matchA, matchB]).take k) ∧
      (∀ j, j < k →
        sumEff sheetsEmpty ((scoreDescSort [matchA, matchB]).take (j + 1)) ≤ CONTEXT_MAX_TOKENS) ∧
      (∀ m ms', (scoreDescSort [matchA, matchB]).drop k = m :: ms' →
        CONTEXT_MAX_TOKENS <
          sumEff sheetsEmpty ((scoreDescSort [matchA, matchB]).take k) + effTokens sheetsEmpty m) :=
  selectChunks_budgeted_selection [matchA, matchB] sheetsEmpty

theorem colToExcel_eq_getColumnLetter_witness : colToExcel 27 = getColumnLetter 28 :=
  colToExcel_eq_getColumnLetter 27

theorem selectChunks_within_budget_witness :
    sumEff sheetsEmpty ((selectChunks [matchA] sheetsEmpty).1) ≤ CONTEXT_MAX_TOKENS ∧
    (selectChunks [matchA] sheetsEmpty).2 =
      sumEff sheetsEmpty ((selectChunks [matchA] sheetsEmpty).1) :=
  selectChunks_within_budget [matchA] sheetsEmpty
